import Mathlib

/-!
Shallow embedding of the expression-parsing engine of the
exprtree-visualizer repository, together with proofs about its
specification claims.

Embedded components (all translated from the TypeScript source):
* `toPostfix`            — `ExpressionInputComponent.toPostfix`
  (character-level shunting-yard conversion, expression-input.component.ts).
* `validateExpression`   — `ExpressionInputComponent.validateExpression`
  (the syntax validator, expression-input.component.ts).
* `buildTreeFromPostfix` — `RecursiveParserPanelComponent.buildTreeFromPostfix`
  (stack-machine postfix → tree builder, recursive-parser-panel.component.ts;
  the second copy in parser-view.component.ts differs only in message text).
* `parseRecursiveInfix`  — the virtual-stack recursive-descent builder
  (parser-view.component.ts).
* `parseRecursiveInfixV0` — the plain recursive-descent builder without a
  virtual stack (src/unnamed/part_000).
* `treeToPostfix`        — modelled from the spec (it has no implementation
  under src/).

Node ids: the source generates ids with `crypto.randomUUID()` (postfix
builder, part_000 builder) or content/position-derived strings (virtual-stack
builder).  Random ids are modelled by a deterministic counter threaded through
the computation; all claims about trees are stated modulo node ids
(`eraseIds`).
-/

/-- Node kinds of the expression tree.  The source uses the string union
'operator' | 'number' | 'variable' | 'unary'; `var` stands for 'variable'
(a reserved word in Lean). -/
inductive NodeType where
  | operator
  | number
  | var
  | unary
deriving DecidableEq, Repr

/-- String name of a node type, as it appears in the source (used in the
content-derived node ids of the virtual-stack builder). -/
def NodeType.str : NodeType → String
  | .operator => "operator"
  | .number => "number"
  | .var => "variable"
  | .unary => "unary"

/-- `ExpressionNode` of the source: id, type, value and optional children.
`isVirtual` is only ever set by the rendering sink (outside the engine), so it
is omitted. -/
inductive ExpressionNode where
  | mk (id : String) (type : NodeType) (value : String)
      (left : Option ExpressionNode) (right : Option ExpressionNode)

mutual

/-- Decidable equality for `ExpressionNode` (not derivable for nested
inductives in this Lean version). -/
def ExpressionNode.decEq : (a b : ExpressionNode) → Decidable (a = b)
  | .mk i t v l r, .mk i2 t2 v2 l2 r2 =>
    if h1 : i = i2 then
      if h2 : t = t2 then
        if h3 : v = v2 then
          match ExpressionNode.decEqOpt l l2, ExpressionNode.decEqOpt r r2 with
          | isTrue h4, isTrue h5 => isTrue (by rw [h1, h2, h3, h4, h5])
          | isFalse h4, _ => isFalse (fun he => by cases he; exact h4 rfl)
          | _, isFalse h5 => isFalse (fun he => by cases he; exact h5 rfl)
        else isFalse (fun he => by cases he; exact h3 rfl)
      else isFalse (fun he => by cases he; exact h2 rfl)
    else isFalse (fun he => by cases he; exact h1 rfl)

/-- Decidable equality on optional nodes. -/
def ExpressionNode.decEqOpt : (a b : Option ExpressionNode) → Decidable (a = b)
  | none, none => isTrue rfl
  | none, some _ => isFalse (by simp)
  | some _, none => isFalse (by simp)
  | some x, some y =>
    match ExpressionNode.decEq x y with
    | isTrue h => isTrue (by rw [h])
    | isFalse h => isFalse (by simpa using h)

end

instance : DecidableEq ExpressionNode := ExpressionNode.decEq

instance : DecidableEq (Option ExpressionNode) := ExpressionNode.decEqOpt

mutual

/-- Debug rendering of a node. -/
def ExpressionNode.dump : ExpressionNode → String
  | .mk i t v l r =>
    "⟨" ++ i ++ ", " ++ t.str ++ ", " ++ v ++ ", " ++
      ExpressionNode.dumpOpt l ++ ", " ++ ExpressionNode.dumpOpt r ++ "⟩"

/-- Debug rendering of an optional node. -/
def ExpressionNode.dumpOpt : Option ExpressionNode → String
  | none => "·"
  | some x => ExpressionNode.dump x

end

instance : Repr ExpressionNode := ⟨fun n _ => n.dump⟩

def ExpressionNode.id : ExpressionNode → String
  | .mk i _ _ _ _ => i

def ExpressionNode.type : ExpressionNode → NodeType
  | .mk _ t _ _ _ => t

def ExpressionNode.value : ExpressionNode → String
  | .mk _ _ v _ _ => v

def ExpressionNode.left : ExpressionNode → Option ExpressionNode
  | .mk _ _ _ l _ => l

def ExpressionNode.right : ExpressionNode → Option ExpressionNode
  | .mk _ _ _ _ r => r

/-- `BuildStep` of the source: 1-based step number, the token that caused the
step, a message, a snapshot of the construction stack after the step
(bottom-to-top, as in the TS arrays) and the top-of-stack node. -/
structure BuildStep where
  step : Nat
  token : String
  action : String
  stackSnapshot : List ExpressionNode
  currentRoot : Option ExpressionNode
deriving DecidableEq, Repr

/-- `ParseResult` of the source. -/
structure ParseResult where
  tree : Option ExpressionNode
  steps : List BuildStep
  isValid : Bool
  errorMessage : Option String
deriving DecidableEq, Repr

/-- `BuildStep` of the part_000 variant (no `stackSnapshot` field). -/
structure BuildStepV0 where
  step : Nat
  token : String
  action : String
  currentRoot : Option ExpressionNode
deriving DecidableEq, Repr

/-- `ParseResult` of the part_000 variant. -/
structure ParseResultV0 where
  tree : Option ExpressionNode
  steps : List BuildStepV0
  isValid : Bool
  errorMessage : Option String
deriving DecidableEq, Repr

/-- One-character string; the TS pushes single characters as tokens. -/
def strOfChar (c : Char) : String := ⟨[c]⟩

/-- The six operator characters `+ - * / \ ^`. -/
def isOperatorChar (c : Char) : Bool :=
  (['+', '-', '*', '/', '\\', '^'] : List Char).contains c

/-- Operand characters: the regex `[a-zA-Z0-9]` of the source. -/
def isOperandChar (c : Char) : Bool := c.isAlpha || c.isDigit

/-- Precedence table of `toPostfix` (source: `+ -` ↦ 1, `* / \` ↦ 2,
`^` ↦ 3).  Characters outside the table are never looked up by the source. -/
def precedence : Char → Nat
  | '+' => 1
  | '-' => 1
  | '*' => 2
  | '/' => 2
  | '\\' => 2
  | '^' => 3
  | _ => 0

/-- The sole right-associative operator of the source is `^`. -/
def rightAssociative (c : Char) : Bool := c = '^'

/-- The inner while-loop of `toPostfix` on seeing operator `tok`: pop stacked
operators (stack top first) while the top is an operator of strictly greater
precedence, or of equal precedence when `tok` is not right-associative.
Returns the popped output (in pop order) and the remaining stack. -/
def shuntPop (tok : Char) : List Char → List String × List Char
  | [] => ([], [])
  | top :: rest =>
    if isOperatorChar top ∧
        (precedence top > precedence tok ∨
          (precedence top = precedence tok ∧ rightAssociative tok = false)) then
      let r := shuntPop tok rest
      (strOfChar top :: r.1, r.2)
    else ([], top :: rest)

/-- The `)`-loop of `toPostfix`: pop operators to the output until a matching
`(` is found (which is discarded); `none` when the stack runs out. -/
def popUntilParen : List Char → Option (List String × List Char)
  | [] => none
  | top :: rest =>
    if top = '(' then some ([], rest)
    else
      match popUntilParen rest with
      | none => none
      | some (out, st) => some (strOfChar top :: out, st)

/-- The final drain of `toPostfix`: pop every remaining stack entry to the
output; a leftover parenthesis is a fatal unbalanced-parenthesis error. -/
def drainStack : List Char → Except String (List String)
  | [] => .ok []
  | top :: rest =>
    if top = '(' ∨ top = ')' then
      .error "Paréntesis desbalanceados al final de la conversión a postfix."
    else
      match drainStack rest with
      | .error e => .error e
      | .ok out => .ok (strOfChar top :: out)

/-- Main character scan of `toPostfix`.  The operator stack has its top at the
head.  `out` is the output token list. -/
def shuntGo : List Char → List String → List Char → Except String (List String)
  | [], out, stack =>
    match drainStack stack with
    | .error e => .error e
    | .ok rest => .ok (out ++ rest)
  | c :: cs, out, stack =>
    if isOperandChar c then shuntGo cs (out ++ [strOfChar c]) stack
    else if isOperatorChar c then
      let r := shuntPop c stack
      shuntGo cs (out ++ r.1) (c :: r.2)
    else if c = '(' then shuntGo cs out ('(' :: stack)
    else if c = ')' then
      match popUntilParen stack with
      | none => .error "Paréntesis desbalanceados en conversión a postfix."
      | some (popped, st) => shuntGo cs (out ++ popped) st
    else .error ("Carácter no válido en conversión a postfix: \"" ++ strOfChar c ++ "\"")

/-- `output.join(' ')` of the source. -/
def joinSpace : List String → String
  | [] => ""
  | [t] => t
  | t :: ts => t ++ " " ++ joinSpace ts

/-- `ExpressionInputComponent.toPostfix`: character-level shunting-yard
conversion from infix to a space-separated postfix string.  Exceptions are
modelled with `Except`. -/
def toPostfix (expr : String) : Except String String :=
  match shuntGo expr.data [] [] with
  | .error e => .error e
  | .ok out => .ok (joinSpace out)

/-- JS `String.prototype.trim` on a character list (used because the source
calls `expr.trim()`). -/
def trimData (l : List Char) : List Char :=
  ((l.dropWhile Char.isWhitespace).reverse.dropWhile Char.isWhitespace).reverse

/-- Characters allowed by the validator's pattern
`/^[a-zA-Z0-9\s()+\-*/\\^]*$/`. -/
def isAllowedChar (c : Char) : Bool :=
  c.isAlpha || c.isDigit || c.isWhitespace ||
    (['(', ')', '+', '-', '*', '/', '\\', '^'] : List Char).contains c

/-- The parenthesis scan of the validator: walks the characters updating a
counter; stops at the first moment the counter goes negative.  Returns whether
it stopped early (the mid-scan error) and the final counter value. -/
def parenWalk : List Char → Int → Bool × Int
  | [], n => (false, n)
  | c :: cs, n =>
    let n1 := if c = '(' then n + 1 else n
    let n2 := if c = ')' then n1 - 1 else n1
    if n2 < 0 then (true, n2) else parenWalk cs n2

/-- The regex `/[+\-*/\\^]{2,}/` of the validator: some two adjacent operator
characters occur. -/
def hasAdjacentOps : List Char → Bool
  | a :: b :: rest => (isOperatorChar a && isOperatorChar b) || hasAdjacentOps (b :: rest)
  | _ => false

/-- `ExpressionInputComponent.validateExpression`: returns the violation list
and the validity flag (`errors.length === 0 && !!expr.trim()`). -/
def validateExpression (expr : String) : List String × Bool :=
  let e0 : List String :=
    if trimData expr.data = [] then ["La expresión no puede estar vacía."] else []
  let e1 := e0 ++
    (if expr.data ≠ [] ∧ ¬ (expr.data.all isAllowedChar) then
      ["Solo se permiten letras, dígitos, operadores (+, -, *, /, \\, ^) y paréntesis."]
    else [])
  let pw := parenWalk expr.data 0
  let e2 := e1 ++ (if pw.1 then ["Paréntesis desequilibrados."] else [])
  let e3 := e2 ++ (if pw.2 ≠ 0 then ["Paréntesis desequilibrados."] else [])
  let e4 := e3 ++
    (if hasAdjacentOps expr.data then ["No se permiten operadores consecutivos."] else [])
  (e4, e4.isEmpty && !(trimData expr.data = []))

/-- Operand tokens of the postfix builder: the regex `/^[a-zA-Z0-9]+$/`. -/
def isOperandTok (t : String) : Bool :=
  t.data ≠ [] && t.data.all isOperandChar

/-- All-digit tokens: the regex `/^[0-9]+$/`. -/
def isNumberTok (t : String) : Bool :=
  t.data ≠ [] && t.data.all Char.isDigit

/-- All-letter tokens: the regex `/^[a-zA-Z]+$/`. -/
def isIdentTok (t : String) : Bool :=
  t.data ≠ [] && t.data.all Char.isAlpha

/-- Operator tokens of the tree builders. -/
def isOperatorTok (t : String) : Bool :=
  (["+", "-", "*", "/", "\\", "^"] : List String).contains t

/-- Fueled worker for `splitTokens` (fuel makes the recursion structural, so
that it computes definitionally; the wrapper always supplies enough fuel and
fuel-irrelevance is proved below). -/
def splitTokensF : Nat → List Char → List String
  | 0, _ => []
  | _ + 1, [] => []
  | fuel + 1, c :: cs =>
    if c.isWhitespace then splitTokensF fuel cs
    else
      String.mk ((c :: cs).takeWhile (fun x => !x.isWhitespace)) ::
        splitTokensF fuel ((c :: cs).dropWhile (fun x => !x.isWhitespace))

/-- `postfix.split(/\s+/).filter(Boolean)` of the source: the maximal
non-whitespace runs of the string. -/
def splitTokens (l : List Char) : List String := splitTokensF (l.length + 1) l

/-- The fresh leaf node a postfix-builder operand token creates:
`number` when the token is all digits, `variable` otherwise. -/
def leafNodeOf (token : String) (idc : Nat) : ExpressionNode :=
  .mk ("node-" ++ toString idc) (if isNumberTok token then .number else .var)
    token none none

/-- The operator node the postfix builder creates from the two popped
operands. -/
def opNodeOf (token : String) (idc : Nat) (left right : ExpressionNode) :
    ExpressionNode :=
  .mk ("node-" ++ toString idc) .operator token (some left) (some right)

/-- A recorded `BuildStep`: snapshot is the stack after the step, stored
bottom-to-top as in the source arrays (`stack` here has its top at the
head). -/
def stepOf (ctr : Nat) (token action : String) (stack : List ExpressionNode) :
    BuildStep :=
  ⟨ctr, token, action, stack.reverse, stack.head?⟩

/-- Main loop of `buildTreeFromPostfix` (stack top at the head).  `ctr` is the
1-based step counter, `idc` the id supply.  On error the recorded steps are
kept. -/
def buildGo : List String → List ExpressionNode → List BuildStep → Nat → Nat →
    List BuildStep × Except String (List ExpressionNode)
  | [], stack, steps, _, _ => (steps, .ok stack)
  | token :: rest, stack, steps, ctr, idc =>
    if isOperandTok token then
      buildGo rest (leafNodeOf token idc :: stack)
        (steps ++ [stepOf ctr token
          ("Token \"" ++ token ++ "\": operando, se apila como nodo hoja.")
          (leafNodeOf token idc :: stack)])
        (ctr + 1) (idc + 1)
    else if isOperatorTok token then
      match stack with
      | right :: left :: stail =>
        buildGo rest (opNodeOf token idc left right :: stail)
          (steps ++ [stepOf ctr token
            ("Token \"" ++ token ++ "\": operador, se desapilan 2 nodos y se crea un nodo operador.")
            (opNodeOf token idc left right :: stail)])
          (ctr + 1) (idc + 1)
      | _ =>
        (steps, .error ("No hay suficientes operandos en la pila para el operador \"" ++
          token ++ "\"."))
    else (steps, .error ("Token no reconocido en postfix: \"" ++ token ++ "\"."))

/-- `RecursiveParserPanelComponent.buildTreeFromPostfix`: split the postfix
string into tokens, run the stack machine, and package the `ParseResult`. -/
def buildTreeFromPostfix (input : String) : ParseResult :=
  let tokens := splitTokens input.data
  match buildGo tokens [] [] 1 0 with
  | (steps, .error msg) => ⟨none, steps, false, some msg⟩
  | (steps, .ok stack) =>
    if stack.length = 1 then ⟨stack.head?, steps, true, none⟩
    else
      ⟨none, steps, false,
        some ("La pila final no tiene exactamente un elemento. Tamaño actual: " ++
          toString stack.length ++ ".")⟩

/-- The characters `'+-*/\\^()'.includes(c)` of the recursive-descent
tokenizer. -/
def opParenChar (c : Char) : Bool :=
  (['+', '-', '*', '/', '\\', '^', '(', ')'] : List Char).contains c

/-- Fueled worker for the recursive-descent tokenizer: operators and
parentheses are one-character tokens, maximal digit runs and maximal letter
runs are single tokens, any other character is passed through verbatim. -/
def tokenizeF : Nat → List Char → List String
  | 0, _ => []
  | _ + 1, [] => []
  | fuel + 1, c :: cs =>
    if opParenChar c then strOfChar c :: tokenizeF fuel cs
    else if c.isDigit then
      String.mk ((c :: cs).takeWhile Char.isDigit) ::
        tokenizeF fuel ((c :: cs).dropWhile Char.isDigit)
    else if c.isAlpha then
      String.mk ((c :: cs).takeWhile Char.isAlpha) ::
        tokenizeF fuel ((c :: cs).dropWhile Char.isAlpha)
    else strOfChar c :: tokenizeF fuel cs

/-- The tokenizer shared by both recursive-descent builders (see the fueled
worker `tokenizeF` above; the wrapper always supplies enough fuel). -/
def tokenizeChars (l : List Char) : List String := tokenizeF (l.length + 1) l

/-- State of the virtual-stack recursive-descent builder
(`parseRecursiveInfix` in parser-view.component.ts): remaining tokens, the
position `pos` (used in content-derived node ids), the recorded steps, the
virtual stack (top at the head) and the 1-based step counter. -/
structure RState where
  rest : List String
  pos : Nat
  steps : List BuildStep
  vstack : List ExpressionNode
  ctr : Nat
deriving DecidableEq, Repr

/-- Consume one token (`consume()` of the source). -/
def RState.advance (st : RState) : RState :=
  { st with rest := st.rest.tail, pos := st.pos + 1 }

/-- `makeStep` of the virtual-stack builder: record a `BuildStep` whose
snapshot is the virtual stack after the step (bottom-to-top, as in the TS
array) and whose `currentRoot` is the top of the virtual stack. -/
def RState.makeStep (st : RState) (token action : String) : RState :=
  { st with
    steps := st.steps ++
      [⟨st.ctr, token, action, st.vstack.reverse, st.vstack.head?⟩],
    ctr := st.ctr + 1 }

/-- `pushLeaf` of the virtual-stack builder: build a leaf node with the
content/position-derived id, push it on the virtual stack and record a step. -/
def RState.pushLeaf (st : RState) (value : String) (ty : NodeType) :
    RState × ExpressionNode :=
  let node : ExpressionNode :=
    .mk (ty.str ++ "-" ++ value ++ "-" ++ toString (st.pos - 1)) ty value none none
  let st1 := { st with vstack := node :: st.vstack }
  (st1.makeStep value ("Token \"" ++ value ++ "\": operando, se apila como hoja."), node)

/-- `combineOperator` of the virtual-stack builder: pop the right and left
operands — preferring real stack contents over the threaded parameters
(`virtualStack.pop() ?? rightNode`) — build the operator node, push it and
record a step.  The source's `if (!left || !right) throw` is unreachable
because the fallback parameters are never null. -/
def RState.combineOperator (st : RState) (op : String)
    (leftN rightN : ExpressionNode) : RState × ExpressionNode :=
  let pr : ExpressionNode × List ExpressionNode :=
    match st.vstack with
    | x :: xs => (x, xs)
    | [] => (rightN, [])
  let pl : ExpressionNode × List ExpressionNode :=
    match pr.2 with
    | x :: xs => (x, xs)
    | [] => (leftN, [])
  let node : ExpressionNode :=
    .mk (op ++ ":" ++ pl.1.id ++ ":" ++ pr.1.id) .operator op (some pl.1) (some pr.1)
  let st1 := { st with vstack := node :: pl.2 }
  (st1.makeStep op ("Token \"" ++ op ++ "\": operador, se combinan dos nodos."), node)

mutual

/-- `parseExpression` of the virtual-stack builder:
`Expression := Term (('+'|'-') Term)*`.  General recursion is modelled with a
fuel parameter; the top-level wrapper supplies enough fuel for every input. -/
def parseExpressionF : Nat → RState → RState × Except String ExpressionNode
  | 0, st => (st, .error "fuel")
  | fuel + 1, st =>
    match parseTermF fuel st with
    | (st1, .error e) => (st1, .error e)
    | (st1, .ok left) => parseELoopF fuel left st1

/-- The `while (peek() === '+' || peek() === '-')` loop of `parseExpression`. -/
def parseELoopF : Nat → ExpressionNode → RState → RState × Except String ExpressionNode
  | 0, _, st => (st, .error "fuel")
  | fuel + 1, left, st =>
    match st.rest with
    | op :: _ =>
      if op = "+" ∨ op = "-" then
        let st1 := st.advance
        match parseTermF fuel st1 with
        | (st2, .error e) => (st2, .error e)
        | (st2, .ok right) =>
          let cr := st2.combineOperator op left right
          parseELoopF fuel cr.2 cr.1
      else (st, .ok left)
    | [] => (st, .ok left)

/-- `parseTerm` of the virtual-stack builder:
`Term := Factor (('*'|'/'|'\')' Factor)*`. -/
def parseTermF : Nat → RState → RState × Except String ExpressionNode
  | 0, st => (st, .error "fuel")
  | fuel + 1, st =>
    match parseFactorF fuel st with
    | (st1, .error e) => (st1, .error e)
    | (st1, .ok left) => parseTLoopF fuel left st1

/-- The `while` loop of `parseTerm` over `* / \`. -/
def parseTLoopF : Nat → ExpressionNode → RState → RState × Except String ExpressionNode
  | 0, _, st => (st, .error "fuel")
  | fuel + 1, left, st =>
    match st.rest with
    | op :: _ =>
      if op = "*" ∨ op = "/" ∨ op = "\\" then
        let st1 := st.advance
        match parseFactorF fuel st1 with
        | (st2, .error e) => (st2, .error e)
        | (st2, .ok right) =>
          let cr := st2.combineOperator op left right
          parseTLoopF fuel cr.2 cr.1
      else (st, .ok left)
    | [] => (st, .ok left)

/-- The `('^' Factor)?` continuation, written inline four times in the
source `parseFactor` (after the unary node, the closed parenthesis, a number
leaf and a variable leaf, each time with the same code): if the next token is
`^`, consume it, parse the exponent factor and combine; otherwise return the
base node unchanged. -/
def parsePowF : Nat → ExpressionNode → RState → RState × Except String ExpressionNode
  | 0, _, st => (st, .error "fuel")
  | fuel + 1, base, st =>
    if st.rest.head? = some "^" then
      let st1 := st.advance
      match parseFactorF fuel st1 with
      | (st2, .error e) => (st2, .error e)
      | (st2, .ok expR) =>
        let cr := st2.combineOperator "^" base expR
        (cr.1, .ok cr.2)
    else (st, .ok base)

/-- `parseFactor` of the virtual-stack builder: unary minus, parenthesized
subexpression, number or variable, each optionally followed by `'^' Factor`
(`parsePowF`).  The unary branch pushes the freshly built NEG node on the
virtual stack without popping its operand (exactly as the source does). -/
def parseFactorF : Nat → RState → RState × Except String ExpressionNode
  | 0, st => (st, .error "fuel")
  | fuel + 1, st =>
    match st.rest with
    | [] => (st, .error "Expresión incompleta (factor faltante).")
    | t :: _ =>
      if t = "-" then
        let st1 := st.advance
        match parseFactorF fuel st1 with
        | (st2, .error e) => (st2, .error e)
        | (st2, .ok right) =>
          let node : ExpressionNode :=
            .mk ("neg-" ++ right.id) .unary "neg" none (some right)
          let st3 := { st2 with vstack := node :: st2.vstack }
          let st4 := st3.makeStep "NEG" "Token \"-\": creación de nodo unario NEG."
          parsePowF fuel node st4
      else if t = "(" then
        let st1 := st.advance
        match parseExpressionF fuel st1 with
        | (st2, .error e) => (st2, .error e)
        | (st2, .ok node) =>
          if st2.rest.head? = some ")" then
            let st3 := st2.advance
            let st4 := st3.makeStep "()" "Token \"()\": subexpresión evaluada."
            parsePowF fuel node st4
          else (st2, .error "Paréntesis no cerrado.")
      else if isNumberTok t then
        let st1 := st.advance
        let pl := st1.pushLeaf t .number
        parsePowF fuel pl.2 pl.1
      else if isIdentTok t then
        let st1 := st.advance
        let pl := st1.pushLeaf t .var
        parsePowF fuel pl.2 pl.1
      else (st, .error ("Token inválido: \"" ++ t ++ "\"."))

end

/-- `parseRecursiveInfix` of parser-view.component.ts: tokenize, run the
grammar, then check for leftover tokens and that the virtual stack holds a
single node; on success append the DONE step and return `virtualStack[0]`. -/
def parseRecursiveInfix (expr : String) : ParseResult :=
  let tokens := tokenizeChars expr.data
  let st0 : RState := ⟨tokens, 0, [], [], 1⟩
  match parseExpressionF (3 * tokens.length + 3) st0 with
  | (st, .error msg) => ⟨none, st.steps, false, some msg⟩
  | (st, .ok _) =>
    match st.rest with
    | t :: _ =>
      ⟨none, st.steps, false,
        some ("Tokens sobrantes después del parseo: \"" ++ t ++ "\".")⟩
    | [] =>
      if st.vstack.length = 1 then
        let st1 := st.makeStep "DONE" "Construcción finalizada (árbol completo)."
        ⟨st.vstack.head?, st1.steps, true, none⟩
      else
        ⟨none, st.steps, false,
          some ("La pila final no tiene un único nodo (size=" ++
            toString st.vstack.length ++ ").")⟩

/-- State of the part_000 recursive-descent builder: remaining tokens,
recorded steps, the 1-based step counter and the id supply (the source uses
`crypto.randomUUID()`; ids are modelled by a counter). -/
structure V0State where
  rest : List String
  steps : List BuildStepV0
  ctr : Nat
  idc : Nat
deriving DecidableEq, Repr

/-- Consume one token in the part_000 builder. -/
def V0State.advance (st : V0State) : V0State :=
  { st with rest := st.rest.tail }

/-- `makeStep` of the part_000 builder (no stack snapshot; `currentRoot` is
passed explicitly). -/
def V0State.makeStep (st : V0State) (token action : String)
    (root : Option ExpressionNode) : V0State :=
  { st with steps := st.steps ++ [⟨st.ctr, token, action, root⟩], ctr := st.ctr + 1 }

/-- Take a fresh id from the supply. -/
def V0State.freshId (st : V0State) : String × V0State :=
  ("id-" ++ toString st.idc, { st with idc := st.idc + 1 })

mutual

/-- `parseExpression` of the part_000 builder. -/
def parseExpressionV0 : Nat → V0State → V0State × Except String ExpressionNode
  | 0, st => (st, .error "fuel")
  | fuel + 1, st =>
    match parseTermV0 fuel st with
    | (st1, .error e) => (st1, .error e)
    | (st1, .ok left) => parseELoopV0 fuel left st1

/-- The `+ -` loop of the part_000 `parseExpression`. -/
def parseELoopV0 : Nat → ExpressionNode → V0State → V0State × Except String ExpressionNode
  | 0, _, st => (st, .error "fuel")
  | fuel + 1, left, st =>
    match st.rest with
    | op :: _ =>
      if op = "+" ∨ op = "-" then
        let st1 := st.advance
        match parseTermV0 fuel st1 with
        | (st2, .error e) => (st2, .error e)
        | (st2, .ok right) =>
          let fr := st2.freshId
          let node : ExpressionNode := .mk fr.1 .operator op (some left) (some right)
          let st3 := fr.2.makeStep op ("Creado nodo operador \"" ++ op ++ "\".") (some node)
          parseELoopV0 fuel node st3
      else (st, .ok left)
    | [] => (st, .ok left)

/-- `parseTerm` of the part_000 builder. -/
def parseTermV0 : Nat → V0State → V0State × Except String ExpressionNode
  | 0, st => (st, .error "fuel")
  | fuel + 1, st =>
    match parseFactorV0 fuel st with
    | (st1, .error e) => (st1, .error e)
    | (st1, .ok left) => parseTLoopV0 fuel left st1

/-- The `* / \` loop of the part_000 `parseTerm`. -/
def parseTLoopV0 : Nat → ExpressionNode → V0State → V0State × Except String ExpressionNode
  | 0, _, st => (st, .error "fuel")
  | fuel + 1, left, st =>
    match st.rest with
    | op :: _ =>
      if op = "*" ∨ op = "/" ∨ op = "\\" then
        let st1 := st.advance
        match parseFactorV0 fuel st1 with
        | (st2, .error e) => (st2, .error e)
        | (st2, .ok right) =>
          let fr := st2.freshId
          let node : ExpressionNode := .mk fr.1 .operator op (some left) (some right)
          let st3 := fr.2.makeStep op ("Creado nodo operador \"" ++ op ++ "\".") (some node)
          parseTLoopV0 fuel node st3
      else (st, .ok left)
    | [] => (st, .ok left)

/-- `parseFactor` of the part_000 builder. -/
def parseFactorV0 : Nat → V0State → V0State × Except String ExpressionNode
  | 0, st => (st, .error "fuel")
  | fuel + 1, st =>
    match st.rest with
    | [] => (st, .error "Expresión incompleta (se esperaba un factor).")
    | t :: _ =>
      if t = "-" then
        let st1 := st.advance
        match parseFactorV0 fuel st1 with
        | (st2, .error e) => (st2, .error e)
        | (st2, .ok right) =>
          let fr := st2.freshId
          let node : ExpressionNode := .mk fr.1 .unary "neg" none (some right)
          let st3 := fr.2.makeStep "NEG" "Creado nodo unario NEG." (some node)
          if st3.rest.head? = some "^" then
            let st4 := st3.advance
            match parseFactorV0 fuel st4 with
            | (st5, .error e) => (st5, .error e)
            | (st5, .ok rightExp) =>
              let fr2 := st5.freshId
              let expNode : ExpressionNode :=
                .mk fr2.1 .operator "^" (some node) (some rightExp)
              let st6 := fr2.2.makeStep "^"
                "Creado operador \"^\" aplicando exponente a unario." (some expNode)
              (st6, .ok expNode)
          else (st3, .ok node)
      else if t = "(" then
        let st1 := st.advance
        match parseExpressionV0 fuel st1 with
        | (st2, .error e) => (st2, .error e)
        | (st2, .ok node) =>
          if st2.rest.head? = some ")" then
            let st3 := st2.advance
            let st4 := st3.makeStep "()" "Evaluada subexpresión entre paréntesis." (some node)
            if st4.rest.head? = some "^" then
              let st5 := st4.advance
              match parseFactorV0 fuel st5 with
              | (st6, .error e) => (st6, .error e)
              | (st6, .ok rightExp) =>
                let fr2 := st6.freshId
                let expNode : ExpressionNode :=
                  .mk fr2.1 .operator "^" (some node) (some rightExp)
                let st7 := fr2.2.makeStep "^"
                  "Creado operador \"^\" como exponente de subexpresión." (some expNode)
                (st7, .ok expNode)
            else (st4, .ok node)
          else (st2, .error "Paréntesis sin cerrar.")
      else if isNumberTok t then
        let st1 := st.advance
        let fr := st1.freshId
        let node : ExpressionNode := .mk fr.1 .number t none none
        let st2 := fr.2.makeStep t ("Creado nodo número \"" ++ t ++ "\".") (some node)
        if st2.rest.head? = some "^" then
          let st3 := st2.advance
          match parseFactorV0 fuel st3 with
          | (st4, .error e) => (st4, .error e)
          | (st4, .ok rightExp) =>
            let fr2 := st4.freshId
            let expNode : ExpressionNode :=
              .mk fr2.1 .operator "^" (some node) (some rightExp)
            let st5 := fr2.2.makeStep "^"
              "Creado operador \"^\" con base número." (some expNode)
            (st5, .ok expNode)
        else (st2, .ok node)
      else if isIdentTok t then
        let st1 := st.advance
        let fr := st1.freshId
        let node : ExpressionNode := .mk fr.1 .var t none none
        let st2 := fr.2.makeStep t ("Creado nodo variable \"" ++ t ++ "\".") (some node)
        if st2.rest.head? = some "^" then
          let st3 := st2.advance
          match parseFactorV0 fuel st3 with
          | (st4, .error e) => (st4, .error e)
          | (st4, .ok rightExp) =>
            let fr2 := st4.freshId
            let expNode : ExpressionNode :=
              .mk fr2.1 .operator "^" (some node) (some rightExp)
            let st5 := fr2.2.makeStep "^"
              "Creado operador \"^\" con base variable." (some expNode)
            (st5, .ok expNode)
        else (st2, .ok node)
      else (st, .error ("Token no válido en factor: \"" ++ t ++ "\"."))

end

/-- `parseRecursiveInfix` of src/unnamed/part_000: no virtual stack; on
success (no leftover tokens) the DONE step is recorded and the root
returned. -/
def parseRecursiveInfixV0 (expr : String) : ParseResultV0 :=
  let tokens := tokenizeChars expr.data
  let st0 : V0State := ⟨tokens, [], 1, 0⟩
  match parseExpressionV0 (3 * tokens.length + 3) st0 with
  | (st, .error msg) => ⟨none, st.steps, false, some msg⟩
  | (st, .ok root) =>
    match st.rest with
    | t :: _ =>
      ⟨none, st.steps, false,
        some ("Tokens sobrantes después del parseo: \"" ++ t ++ "\".")⟩
    | [] =>
      let st1 := st.makeStep "DONE" "Árbol completo construido." (some root)
      ⟨some root, st1.steps, true, none⟩

/-- Id-free shape of an expression tree, used to state structural equality
modulo node ids. -/
inductive ExprS where
  | leaf (v : String)
  | bin (op : String) (l r : ExprS)
  | un (child : ExprS)
deriving DecidableEq, Repr

/-- Erase every node id (replace by `""`), keeping type, value and
structure: the formal meaning of "modulo node ids". -/
def eraseIds : ExpressionNode → ExpressionNode
  | .mk _ t v l r =>
    .mk "" t v
      (match l with
        | none => none
        | some x => some (eraseIds x))
      (match r with
        | none => none
        | some x => some (eraseIds x))

/-- The canonical node (with erased ids) for an id-free shape.  Leaf types
are derived from the value exactly as both builders do: all-digit values are
numbers, all others variables. -/
def canonNode : ExprS → ExpressionNode
  | .leaf v => .mk "" (if isNumberTok v then .number else .var) v none none
  | .bin op l r => .mk "" .operator op (some (canonNode l)) (some (canonNode r))
  | .un c => .mk "" .unary "neg" none (some (canonNode c))

/-- Modelled from the spec: `treeToPostfix` has no implementation under
src/; §4.5 describes it as the post-order serialization — operator nodes
visit left, then right, then emit themselves; unary nodes visit the one
child then emit themselves; leaves emit themselves.  This returns the token
list. -/
def treeToPostfixTokens : ExpressionNode → List String
  | .mk _ .operator v l r =>
    (match l with
      | none => []
      | some x => treeToPostfixTokens x) ++
    (match r with
      | none => []
      | some x => treeToPostfixTokens x) ++ [v]
  | .mk _ .unary v _ r =>
    (match r with
      | none => []
      | some x => treeToPostfixTokens x) ++ [v]
  | .mk _ _ v _ _ => [v]

/-- Modelled from the spec: `treeToPostfix` as a space-separated string
(§6 public surface). -/
def treeToPostfix (t : ExpressionNode) : String :=
  joinSpace (treeToPostfixTokens t)

/-- Post-order token sequence of an id-free shape. -/
def poT : ExprS → List String
  | .leaf v => [v]
  | .bin op l r => poT l ++ poT r ++ [op]
  | .un c => poT c ++ ["neg"]

instance {ε α : Type} [DecidableEq ε] [DecidableEq α] : DecidableEq (Except ε α) :=
  fun a b =>
    match a, b with
    | .ok x, .ok y =>
      if h : x = y then isTrue (by rw [h]) else isFalse (by simpa using h)
    | .error x, .error y =>
      if h : x = y then isTrue (by rw [h]) else isFalse (by simpa using h)
    | .ok _, .error _ => isFalse (by simp)
    | .error _, .ok _ => isFalse (by simp)

/-- Concatenation of the character data of a token list (the infix string a
token list denotes). -/
def flatChars (ts : List String) : List Char := (ts.map String.data).flatten

/-- The string a token list denotes. -/
def strConcat (ts : List String) : String := ⟨flatChars ts⟩

/-- Derivations of the engine's grammar (§4.5) restricted to the inputs on
which the two construction strategies can be compared: single-character
operands and no unary minus.  `Gr lvl ts acc res` means the token list `ts`
is generated by the level `lvl` with resulting shape `res`:
* level 2 — `Factor := Operand ('^' Factor)? | '(' Expression ')' ('^' Factor)?`;
* level 1 — `Term := Factor TermTail`;
* level 4 — `TermTail := (('*'|'/'|'\') Factor)*`, folding left-associatively
  onto the accumulator shape `acc`;
* level 0 — `Expression := Term ExprTail`;
* level 3 — `ExprTail := (('+'|'-') Term)*`, folding onto `acc`.
For the non-tail levels 0, 1, 2 the accumulator index coincides with the
result. -/
inductive Gr : Nat → List String → ExprS → ExprS → Prop where
  | fLeaf {c : Char} : isOperandChar c = true →
      Gr 2 [strOfChar c] (.leaf (strOfChar c)) (.leaf (strOfChar c))
  | fPow {c : Char} {ts2 : List String} {e2 : ExprS} : isOperandChar c = true →
      Gr 2 ts2 e2 e2 →
      Gr 2 (strOfChar c :: "^" :: ts2) (.bin "^" (.leaf (strOfChar c)) e2)
        (.bin "^" (.leaf (strOfChar c)) e2)
  | fParen {ts : List String} {e : ExprS} : Gr 0 ts e e →
      Gr 2 ("(" :: ts ++ [")"]) e e
  | fParenPow {ts : List String} {e : ExprS} {ts2 : List String} {e2 : ExprS} :
      Gr 0 ts e e → Gr 2 ts2 e2 e2 →
      Gr 2 ("(" :: ts ++ ")" :: "^" :: ts2) (.bin "^" e e2) (.bin "^" e e2)
  | tNil {acc : ExprS} : Gr 4 [] acc acc
  | tCons {op : String} {ts2 : List String} {e2 : ExprS} {ts' : List String}
      {acc r : ExprS} : op = "*" ∨ op = "/" ∨ op = "\\" →
      Gr 2 ts2 e2 e2 → Gr 4 ts' (.bin op acc e2) r →
      Gr 4 (op :: ts2 ++ ts') acc r
  | tRule {ts : List String} {e : ExprS} {ts' : List String} {r : ExprS} :
      Gr 2 ts e e → Gr 4 ts' e r → Gr 1 (ts ++ ts') r r
  | eNil {acc : ExprS} : Gr 3 [] acc acc
  | eCons {op : String} {ts2 : List String} {e2 : ExprS} {ts' : List String}
      {acc r : ExprS} : op = "+" ∨ op = "-" →
      Gr 1 ts2 e2 e2 → Gr 3 ts' (.bin op acc e2) r →
      Gr 3 (op :: ts2 ++ ts') acc r
  | eRule {ts : List String} {e : ExprS} {ts' : List String} {r : ExprS} :
      Gr 1 ts e e → Gr 3 ts' e r → Gr 0 (ts ++ ts') r r

/-- The precedence table exactly as claim C5 states it (spec side, for
comparison with the source's `precedence`). -/
def claimPrec : Char → Nat
  | '+' => 1
  | '-' => 1
  | '*' => 2
  | '/' => 2
  | '\\' => 2
  | '^' => 3
  | _ => 0

/-- Left-associativity as claim C5 states it: every operator except `^`. -/
def claimLeftAssoc (c : Char) : Bool := c ≠ '^'

/-- Invariant of the step recording discipline: the recorded indices are
exactly `1..N` and the counter is the next index. -/
def stepsInv (steps : List BuildStep) (ctr : Nat) : Prop :=
  steps.map (fun s => s.step) = List.range' 1 steps.length ∧
    ctr = steps.length + 1

/-- The character list does not start with an operand character (used to
delimit maximal operand runs in the tokenizer lemmas). -/
def headNotAlnum : List Char → Prop
  | [] => True
  | c :: _ => isOperandChar c = false

/-- The token list does not start with `^` (follow condition of a Factor). -/
def headNotPow : List String → Prop
  | [] => True
  | t :: _ => t ≠ "^"

/-- The token list does not start with `* / \ ^` (follow condition of a
Term). -/
def headNotTermOp : List String → Prop
  | [] => True
  | t :: _ => t ≠ "*" ∧ t ≠ "/" ∧ t ≠ "\\" ∧ t ≠ "^"

/-- The token list does not start with any of the six operators (follow
condition of an Expression). -/
def headNotExprOp : List String → Prop
  | [] => True
  | t :: _ => t ≠ "+" ∧ t ≠ "-" ∧ t ≠ "*" ∧ t ≠ "/" ∧ t ≠ "\\" ∧ t ≠ "^"

/-- A well-formed binary shape: operand leaves, the six operators, and no
unary nodes (the comparable fragment of the two builders). -/
def binTreeWF : ExprS → Bool
  | .leaf v => isOperandTok v
  | .bin op l r => isOperatorTok op && binTreeWF l && binTreeWF r
  | .un _ => false

/-- A token that survives the whitespace split intact: nonempty without
whitespace characters. -/
def goodTok (t : String) : Bool :=
  t.data ≠ [] && t.data.all (fun c => !c.isWhitespace)

/-- Stack segment of operators of precedence at least 2 (the pending part of
a Term on the converter's stack). -/
def ge2Seg (S : List Char) : Prop :=
  ∀ c ∈ S, isOperatorChar c = true ∧ 2 ≤ precedence c

/-- Stack segment of operator characters (the pending part of an Expression
on the converter's stack). -/
def opSeg (S : List Char) : Prop :=
  ∀ c ∈ S, isOperatorChar c = true

/-- The converter stack below a Term being processed: its top must not be an
operator of precedence ≥ 2 (so an incoming `* / \` stops popping there). -/
def stkOK2 : List Char → Prop
  | [] => True
  | d :: _ => isOperatorChar d = false ∨ precedence d < 2

/-- The converter stack below an Expression being processed: its top must not
be an operator at all (so an incoming `+ -` stops popping there). -/
def stkOK1 : List Char → Prop
  | [] => True
  | d :: _ => isOperatorChar d = false

/-- Induction motive for the shunting-yard correctness proof, by grammar
level.  For a Factor the pending stack segment is a run of `^`; for a Term a
segment of operators of precedence ≥ 2; for an Expression an arbitrary
operator segment.  In every case the output already emitted plus the pending
segment (popped top-first) spells the post-order serialization. -/
def ShuntMotive : Nat → List String → ExprS → ExprS → Prop
  | 0, ts, _, r => ∀ (rest : List Char) (out : List String) (stk : List Char),
      stkOK1 stk →
      ∃ (P : List String) (S : List Char), poT r = P ++ S.map strOfChar ∧ opSeg S ∧
        shuntGo (flatChars ts ++ rest) out stk = shuntGo rest (out ++ P) (S ++ stk)
  | 1, ts, _, r => ∀ (rest : List Char) (out : List String) (stk : List Char),
      stkOK2 stk →
      ∃ (P : List String) (S : List Char), poT r = P ++ S.map strOfChar ∧ ge2Seg S ∧
        shuntGo (flatChars ts ++ rest) out stk = shuntGo rest (out ++ P) (S ++ stk)
  | 2, ts, _, r => ∀ (rest : List Char) (out : List String) (stk : List Char),
      ∃ (P : List String) (k : Nat), poT r = P ++ List.replicate k "^" ∧
        shuntGo (flatChars ts ++ rest) out stk =
          shuntGo rest (out ++ P) (List.replicate k '^' ++ stk)
  | 3, ts, acc, r => ∀ (rest : List Char) (out : List String) (stk : List Char)
      (A : List String) (SA : List Char),
      stkOK1 stk → opSeg SA → poT acc = A ++ SA.map strOfChar →
      ∃ (P : List String) (S : List Char), poT r = P ++ S.map strOfChar ∧ opSeg S ∧
        shuntGo (flatChars ts ++ rest) (out ++ A) (SA ++ stk) =
          shuntGo rest (out ++ P) (S ++ stk)
  | 4, ts, acc, r => ∀ (rest : List Char) (out : List String) (stk : List Char)
      (A : List String) (SA : List Char),
      stkOK2 stk → ge2Seg SA → poT acc = A ++ SA.map strOfChar →
      ∃ (P : List String) (S : List Char), poT r = P ++ S.map strOfChar ∧ ge2Seg S ∧
        shuntGo (flatChars ts ++ rest) (out ++ A) (SA ++ stk) =
          shuntGo rest (out ++ P) (S ++ stk)
  | _ + 5, _, _, _ => True

/-- Induction motive for the recursive-descent builder correctness proof, by
grammar level.  Each parse function consumes exactly its derivation's tokens
(given the level's follow condition on what comes next), pushes exactly one
node onto the virtual stack, and that node has the canonical erased shape
and the post-order serialization of the derived expression.  The tail
levels 3 and 4 thread the accumulated left operand through the loop. -/
def RDMotive : Nat → List String → ExprS → ExprS → Prop
  | 0, ts, _, r => ∀ (fuel : Nat) (rest : List String) (st : RState),
      3 * ts.length + 3 ≤ fuel → st.rest = ts ++ rest → headNotExprOp rest →
      ∃ (st2 : RState) (node : ExpressionNode),
        parseExpressionF fuel st = (st2, .ok node) ∧ st2.rest = rest ∧
        st2.vstack = node :: st.vstack ∧
        eraseIds node = canonNode r ∧ treeToPostfixTokens node = poT r
  | 1, ts, _, r => ∀ (fuel : Nat) (rest : List String) (st : RState),
      3 * ts.length + 2 ≤ fuel → st.rest = ts ++ rest → headNotTermOp rest →
      ∃ (st2 : RState) (node : ExpressionNode),
        parseTermF fuel st = (st2, .ok node) ∧ st2.rest = rest ∧
        st2.vstack = node :: st.vstack ∧
        eraseIds node = canonNode r ∧ treeToPostfixTokens node = poT r
  | 2, ts, _, r => ∀ (fuel : Nat) (rest : List String) (st : RState),
      3 * ts.length + 1 ≤ fuel → st.rest = ts ++ rest → headNotPow rest →
      ∃ (st2 : RState) (node : ExpressionNode),
        parseFactorF fuel st = (st2, .ok node) ∧ st2.rest = rest ∧
        st2.vstack = node :: st.vstack ∧
        eraseIds node = canonNode r ∧ treeToPostfixTokens node = poT r
  | 3, ts, acc, r => ∀ (fuel : Nat) (rest : List String) (st : RState)
      (left : ExpressionNode) (σ0 : List ExpressionNode),
      3 * ts.length + 1 ≤ fuel → st.rest = ts ++ rest → headNotExprOp rest →
      st.vstack = left :: σ0 → eraseIds left = canonNode acc →
      treeToPostfixTokens left = poT acc →
      ∃ (st2 : RState) (node : ExpressionNode),
        parseELoopF fuel left st = (st2, .ok node) ∧ st2.rest = rest ∧
        st2.vstack = node :: σ0 ∧
        eraseIds node = canonNode r ∧ treeToPostfixTokens node = poT r
  | 4, ts, acc, r => ∀ (fuel : Nat) (rest : List String) (st : RState)
      (left : ExpressionNode) (σ0 : List ExpressionNode),
      3 * ts.length + 1 ≤ fuel → st.rest = ts ++ rest → headNotTermOp rest →
      st.vstack = left :: σ0 → eraseIds left = canonNode acc →
      treeToPostfixTokens left = poT acc →
      ∃ (st2 : RState) (node : ExpressionNode),
        parseTLoopF fuel left st = (st2, .ok node) ∧ st2.rest = rest ∧
        st2.vstack = node :: σ0 ∧
        eraseIds node = canonNode r ∧ treeToPostfixTokens node = poT r
  | _ + 5, _, _, _ => True

/-! ## Concrete scenario theorems and counterexamples -/

/-- C6: `infixToPostfix` applied to `3*(4+5)-6/2` returns exactly the
space-separated string `3 4 5 + * 6 2 / -`. -/
theorem c6_example_conversion :
    toPostfix "3*(4+5)-6/2" = .ok "3 4 5 + * 6 2 / -" := by decide

/-- C10: for the input `-x` the validator reports no violations,
`toPostfix` returns `x -`, and the postfix builder fails on `x -` with the
insufficient-operands error and no tree — a leading unary minus passes
validation yet cannot be built on the postfix path. -/
theorem c10_unary_minus_mismatch :
    validateExpression "-x" = ([], true) ∧
    toPostfix "-x" = .ok "x -" ∧
    (buildTreeFromPostfix "x -").isValid = false ∧
    (buildTreeFromPostfix "x -").errorMessage =
      some "No hay suficientes operandos en la pila para el operador \"-\"." ∧
    (buildTreeFromPostfix "x -").tree = none := by decide

/-- C4 counterexample: on `-x^2` the part_000 recursive-descent builder
succeeds but the root of the returned tree is the unary NEG node (value
`neg`), not the operator `^` claimed; the virtual-stack builder does not
even report success. -/
theorem c4_neg_pow_counterexample :
    (parseRecursiveInfixV0 "-x^2").tree.map (fun t => t.value) = some "neg" ∧
    (parseRecursiveInfixV0 "-x^2").tree.map (fun t => t.type) = some NodeType.unary ∧
    (parseRecursiveInfix "-x^2").isValid = false := by decide

/-- C4 (amended): on `-x^2` the recursive descent reads the exponent inside
the factor, so the built tree is `neg(^(x, 2))` — negation of the whole
power.  The part_000 variant returns it with `isValid = true`; the
virtual-stack variant computes the same root but reports failure because its
virtual stack retains the operand of the unary node (two entries remain). -/
theorem c4_neg_pow_tree :
    (parseRecursiveInfixV0 "-x^2").isValid = true ∧
    (parseRecursiveInfixV0 "-x^2").tree.map eraseIds =
      some (canonNode (.un (.bin "^" (.leaf "x") (.leaf "2")))) ∧
    (parseRecursiveInfix "-x^2").isValid = false ∧
    (parseRecursiveInfix "-x^2").errorMessage =
      some "La pila final no tiene un único nodo (size=2)." := by decide

/-- C2 counterexample: a successful run of the postfix builder on `a b +`
records exactly 3 steps for its 3 tokens — no final completion step is
appended, so the step count does not exceed the token count by one. -/
theorem c2_no_completion_step :
    (buildTreeFromPostfix "a b +").isValid = true ∧
    (splitTokens "a b +".data).length = 3 ∧
    (buildTreeFromPostfix "a b +").steps.length = 3 := by decide

/-- C1 counterexample: `12+3` is accepted by the validator, yet the two
construction strategies disagree: the character-level converter splits `12`
into two operand tokens, after which the stack machine fails and returns no
tree, while the recursive-descent builder succeeds. -/
theorem c1_multichar_counterexample :
    validateExpression "12+3" = ([], true) ∧
    toPostfix "12+3" = .ok "1 2 3 +" ∧
    (buildTreeFromPostfix "1 2 3 +").isValid = false ∧
    (buildTreeFromPostfix "1 2 3 +").tree = none ∧
    (parseRecursiveInfix "12+3").isValid = true := by decide

/-- C3 counterexample: in the virtual-stack builder run on `-x`, the step
recorded for the unary NEG creation has a two-element snapshot whose first
element is still the operand leaf `x` — the unary creation pushed its node
without popping the operand. -/
theorem c3_unary_no_pop_counterexample :
    (parseRecursiveInfix "-x").steps.map
      (fun s => (s.token, s.stackSnapshot.map (fun n => n.value))) =
      [("x", ["x"]), ("NEG", ["x", "neg"])] := by decide

/-! ## General lemmas about the postfix stack machine -/

/-- Master lemma for `buildGo`: the recorded steps extend the accumulator by
exactly one step per processed token (in order, with consecutive indices), a
failure stops the recording, and a success processes every token, with the
final step's snapshot equal to the final stack. -/
theorem buildGo_spec : ∀ (tokens : List String) (stack : List ExpressionNode)
    (steps : List BuildStep) (ctr idc : Nat),
    ∃ Δ : List BuildStep,
      (buildGo tokens stack steps ctr idc).1 = steps ++ Δ ∧
      Δ.map (fun s => s.token) = tokens.take Δ.length ∧
      Δ.length ≤ tokens.length ∧
      Δ.map (fun s => s.step) = List.range' ctr Δ.length ∧
      ∀ σ, (buildGo tokens stack steps ctr idc).2 = .ok σ →
        Δ.length = tokens.length ∧
        (tokens = [] → σ = stack) ∧
        (tokens ≠ [] → ∃ last, Δ.getLast? = some last ∧
          last.stackSnapshot = σ.reverse ∧ last.currentRoot = σ.head?) := by
  intro tokens
  induction tokens with
  | nil =>
    intro stack steps ctr idc
    refine ⟨[], by simp [buildGo], rfl, by simp, rfl, ?_⟩
    intro σ h
    simp only [buildGo] at h
    cases h
    exact ⟨rfl, fun _ => rfl, fun hne => absurd rfl hne⟩
  | cons t rest ih =>
    intro stack steps ctr idc
    by_cases hop : isOperandTok t = true
    · have heq : buildGo (t :: rest) stack steps ctr idc =
          buildGo rest (leafNodeOf t idc :: stack)
            (steps ++ [stepOf ctr t
              ("Token \"" ++ t ++ "\": operando, se apila como nodo hoja.")
              (leafNodeOf t idc :: stack)])
            (ctr + 1) (idc + 1) := by
        simp [buildGo, hop]
      obtain ⟨Δ, h1, h2, h3, h4, h5⟩ :=
        ih (leafNodeOf t idc :: stack)
          (steps ++ [stepOf ctr t
            ("Token \"" ++ t ++ "\": operando, se apila como nodo hoja.")
            (leafNodeOf t idc :: stack)])
          (ctr + 1) (idc + 1)
      refine ⟨stepOf ctr t
        ("Token \"" ++ t ++ "\": operando, se apila como nodo hoja.")
        (leafNodeOf t idc :: stack) :: Δ, ?_, ?_, ?_, ?_, ?_⟩
      · rw [heq, h1]
        simp
      · simpa [stepOf] using h2
      · simpa using h3
      · simpa [stepOf, List.range'_succ] using h4
      · intro σ hσ
        rw [heq] at hσ
        obtain ⟨hlen, _hnil, hlast⟩ := h5 σ hσ
        refine ⟨by simpa using hlen, fun hcon => absurd hcon (List.cons_ne_nil _ _), fun _ => ?_⟩
        rcases Decidable.em (rest = []) with hre | hre
        · subst hre
          have : Δ = [] := List.eq_nil_of_length_eq_zero (by simpa using hlen)
          subst this
          have hσs : σ = leafNodeOf t idc :: stack := by
            have := hσ
            simp [buildGo] at this
            exact this.symm
          exact ⟨_, rfl, by simp [stepOf, hσs], by simp [stepOf, hσs]⟩
        · obtain ⟨last, hl1, hl2, hl3⟩ := hlast hre
          refine ⟨last, ?_, hl2, hl3⟩
          have hΔ : Δ ≠ [] := by
            intro hc
            subst hc
            simp at hlen
            exact hre (List.eq_nil_of_length_eq_zero hlen.symm)
          rw [List.getLast?_cons, hl1]
          simp
    · by_cases hopr : isOperatorTok t = true
      · match stack with
        | right :: left :: stail =>
          have heq : buildGo (t :: rest) (right :: left :: stail) steps ctr idc =
              buildGo rest (opNodeOf t idc left right :: stail)
                (steps ++ [stepOf ctr t
                  ("Token \"" ++ t ++ "\": operador, se desapilan 2 nodos y se crea un nodo operador.")
                  (opNodeOf t idc left right :: stail)])
                (ctr + 1) (idc + 1) := by
            simp [buildGo, hop, hopr]
          obtain ⟨Δ, h1, h2, h3, h4, h5⟩ :=
            ih (opNodeOf t idc left right :: stail)
              (steps ++ [stepOf ctr t
                ("Token \"" ++ t ++ "\": operador, se desapilan 2 nodos y se crea un nodo operador.")
                (opNodeOf t idc left right :: stail)])
              (ctr + 1) (idc + 1)
          refine ⟨stepOf ctr t
            ("Token \"" ++ t ++ "\": operador, se desapilan 2 nodos y se crea un nodo operador.")
            (opNodeOf t idc left right :: stail) :: Δ, ?_, ?_, ?_, ?_, ?_⟩
          · rw [heq, h1]
            simp
          · simpa [stepOf] using h2
          · simpa using h3
          · simpa [stepOf, List.range'_succ] using h4
          · intro σ hσ
            rw [heq] at hσ
            obtain ⟨hlen, _hnil, hlast⟩ := h5 σ hσ
            refine ⟨by simpa using hlen, fun hcon => absurd hcon (List.cons_ne_nil _ _), fun _ => ?_⟩
            rcases Decidable.em (rest = []) with hre | hre
            · subst hre
              have : Δ = [] := List.eq_nil_of_length_eq_zero (by simpa using hlen)
              subst this
              have hσs : σ = opNodeOf t idc left right :: stail := by
                have := hσ
                simp [buildGo] at this
                exact this.symm
              exact ⟨_, rfl, by simp [stepOf, hσs], by simp [stepOf, hσs]⟩
            · obtain ⟨last, hl1, hl2, hl3⟩ := hlast hre
              refine ⟨last, ?_, hl2, hl3⟩
              have hΔ : Δ ≠ [] := by
                intro hc
                subst hc
                simp at hlen
                exact hre (List.eq_nil_of_length_eq_zero hlen.symm)
              rw [List.getLast?_cons, hl1]
              simp
        | [] =>
          refine ⟨[], by simp [buildGo, hop, hopr], rfl, by simp, rfl, ?_⟩
          intro σ hσ
          simp [buildGo, hop, hopr] at hσ
        | [x] =>
          refine ⟨[], by simp [buildGo, hop, hopr], rfl, by simp, rfl, ?_⟩
          intro σ hσ
          simp [buildGo, hop, hopr] at hσ
      · refine ⟨[], by simp [buildGo, hop, hopr], rfl, by simp, rfl, ?_⟩
        intro σ hσ
        simp [buildGo, hop, hopr] at hσ

/-- Field characterization of `buildTreeFromPostfix`: the returned steps are
the ones the loop recorded, the tree is present exactly on validity, a
failure always carries an error message, and validity corresponds to the
machine ending with a one-element stack whose element becomes the tree. -/
theorem buildTree_fields (input : String) :
    (buildTreeFromPostfix input).steps = (buildGo (splitTokens input.data) [] [] 1 0).1 ∧
    ((buildTreeFromPostfix input).tree.isSome = (buildTreeFromPostfix input).isValid) ∧
    ((buildTreeFromPostfix input).isValid = false →
      (buildTreeFromPostfix input).errorMessage.isSome = true) ∧
    (∀ σ, (buildGo (splitTokens input.data) [] [] 1 0).2 = .ok σ → σ.length = 1 →
      (buildTreeFromPostfix input).isValid = true ∧
      (buildTreeFromPostfix input).tree = σ.head?) ∧
    ((buildTreeFromPostfix input).isValid = true →
      ∃ σ, (buildGo (splitTokens input.data) [] [] 1 0).2 = .ok σ ∧ σ.length = 1 ∧
        (buildTreeFromPostfix input).tree = σ.head?) := by
  cases hbg : buildGo (splitTokens input.data) [] [] 1 0 with
  | mk steps res =>
    cases res with
    | error msg =>
      have hres : buildTreeFromPostfix input = ⟨none, steps, false, some msg⟩ := by
        simp only [buildTreeFromPostfix]
        rw [hbg]
      rw [hres]
      refine ⟨rfl, rfl, fun _ => rfl, ?_, ?_⟩
      · intro σ hσ
        cases hσ
      · intro hv
        cases hv
    | ok stack =>
      by_cases hlen : stack.length = 1
      · have hres : buildTreeFromPostfix input = ⟨stack.head?, steps, true, none⟩ := by
          simp only [buildTreeFromPostfix]
          rw [hbg]
          simp [hlen]
        obtain ⟨t, rfl⟩ : ∃ t, stack = [t] := by
          cases stack with
          | nil => cases hlen
          | cons a l =>
            cases l with
            | nil => exact ⟨a, rfl⟩
            | cons b l2 => simp at hlen
        rw [hres]
        refine ⟨rfl, rfl, ?_, ?_, ?_⟩
        · intro hc
          cases hc
        · intro σ hσ _
          cases hσ
          exact ⟨rfl, rfl⟩
        · intro _
          exact ⟨[t], rfl, rfl, rfl⟩
      · have hres : buildTreeFromPostfix input =
            ⟨none, steps, false,
              some ("La pila final no tiene exactamente un elemento. Tamaño actual: " ++
                toString stack.length ++ ".")⟩ := by
          simp only [buildTreeFromPostfix]
          rw [hbg]
          simp [hlen]
        rw [hres]
        refine ⟨rfl, rfl, fun _ => rfl, ?_, ?_⟩
        · intro σ hσ hσ1
          cases hσ
          exact absurd hσ1 hlen
        · intro hv
          cases hv

/-- C2 (amended): on every successful run of the postfix builder exactly one
node remains on the stack, that node is returned as the tree, the final
recorded step's snapshot is that single node, and the step count equals the
token count (one step per token; no completion step is appended). -/
theorem c2_stack_machine_final : ∀ input : String,
    (buildTreeFromPostfix input).isValid = true →
    ∃ t, (buildTreeFromPostfix input).tree = some t ∧
      (buildTreeFromPostfix input).steps.length = (splitTokens input.data).length ∧
      (buildTreeFromPostfix input).steps.getLast?.map (fun s => s.stackSnapshot) =
        some [t] ∧
      (buildTreeFromPostfix input).steps.getLast?.map (fun s => s.currentRoot) =
        some (some t) := by
  intro input hvalid
  obtain ⟨hsteps, _htree, _herr, _hok, hval⟩ := buildTree_fields input
  obtain ⟨σ, hσ, hσ1, htreeσ⟩ := hval hvalid
  obtain ⟨Δ, h1, _h2, _h3, _h4, h5⟩ := buildGo_spec (splitTokens input.data) [] [] 1 0
  obtain ⟨hlen2, hnil, hlast⟩ := h5 σ hσ
  match σ, hσ1 with
  | [t], _ =>
    have htok : splitTokens input.data ≠ [] := by
      intro hc
      cases hnil hc
    obtain ⟨last, hl1, hl2, hl3⟩ := hlast htok
    have hstepsΔ : (buildTreeFromPostfix input).steps = Δ := by
      rw [hsteps, h1]
      simp
    refine ⟨t, htreeσ, ?_, ?_, ?_⟩
    · rw [hstepsΔ, hlen2]
    · rw [hstepsΔ, hl1]
      simp [hl2]
    · rw [hstepsΔ, hl1]
      simp [hl3]

/-- C2 witness. -/
theorem c2_stack_machine_final_witness :
    (buildTreeFromPostfix "a b +").isValid = true ∧
    ∃ t, (buildTreeFromPostfix "a b +").tree = some t ∧
      (buildTreeFromPostfix "a b +").steps.length = (splitTokens "a b +".data).length ∧
      (buildTreeFromPostfix "a b +").steps.getLast?.map (fun s => s.stackSnapshot) =
        some [t] ∧
      (buildTreeFromPostfix "a b +").steps.getLast?.map (fun s => s.currentRoot) =
        some (some t) :=
  ⟨by decide, c2_stack_machine_final "a b +" (by decide)⟩

/-- C7: for every run of the postfix builder the tree is present iff the run
is valid, every failure carries an error message, and the recorded steps are
exactly one step per processed token, in input order, stopping at the point
of failure. -/
theorem c7_error_results : ∀ input : String,
    ((buildTreeFromPostfix input).tree.isSome = (buildTreeFromPostfix input).isValid) ∧
    ((buildTreeFromPostfix input).isValid = false →
      (buildTreeFromPostfix input).errorMessage.isSome = true) ∧
    (buildTreeFromPostfix input).steps.map (fun s => s.token) =
      (splitTokens input.data).take (buildTreeFromPostfix input).steps.length ∧
    (buildTreeFromPostfix input).steps.length ≤ (splitTokens input.data).length := by
  intro input
  obtain ⟨hsteps, htree, herr, _hok, _hval⟩ := buildTree_fields input
  obtain ⟨Δ, h1, h2, h3, _h4, _h5⟩ := buildGo_spec (splitTokens input.data) [] [] 1 0
  have hstepsΔ : (buildTreeFromPostfix input).steps = Δ := by
    rw [hsteps, h1]
    simp
  exact ⟨htree, herr, by rw [hstepsΔ]; exact h2, by rw [hstepsΔ]; exact h3⟩

/-- C7 witness. -/
theorem c7_error_results_witness :
    (buildTreeFromPostfix "x -").isValid = false ∧
    (buildTreeFromPostfix "x -").errorMessage.isSome = true :=
  ⟨by decide, (c7_error_results "x -").2.1 (by decide)⟩

/-! ## Step-index invariant of the virtual-stack builder -/

/-- `makeStep` preserves the step-index invariant. -/
theorem stepsInv_makeStep (st : RState) (tok act : String)
    (h : stepsInv st.steps st.ctr) :
    stepsInv (st.makeStep tok act).steps (st.makeStep tok act).ctr := by
  obtain ⟨h1, h2⟩ := h
  constructor
  · simp only [RState.makeStep, List.map_append, h1, List.length_append,
      List.map_cons, List.map_nil, List.length_cons, List.length_nil]
    rw [h2]
    rw [List.range'_concat]
    simp [Nat.add_comm]
  · simp only [RState.makeStep, List.length_append, List.length_cons, List.length_nil]
    omega

/-- `advance` does not touch steps or counter. -/
theorem stepsInv_advance (st : RState) (h : stepsInv st.steps st.ctr) :
    stepsInv st.advance.steps st.advance.ctr := h

/-- `pushLeaf` preserves the step-index invariant. -/
theorem stepsInv_pushLeaf (st : RState) (v : String) (ty : NodeType)
    (h : stepsInv st.steps st.ctr) :
    stepsInv (st.pushLeaf v ty).1.steps (st.pushLeaf v ty).1.ctr :=
  stepsInv_makeStep { st with vstack := _ :: st.vstack } _ _ h

/-- `combineOperator` preserves the step-index invariant. -/
theorem stepsInv_combineOperator (st : RState) (op : String)
    (l r : ExpressionNode) (h : stepsInv st.steps st.ctr) :
    stepsInv (st.combineOperator op l r).1.steps (st.combineOperator op l r).1.ctr := by
  unfold RState.combineOperator
  exact stepsInv_makeStep _ _ _ h

/-- The six mutually recursive parse functions all preserve the step-index
invariant, whatever the input state and fuel (error and fuel-exhaustion paths
included). -/
theorem parse_inv : ∀ fuel : Nat,
    (∀ st : RState, stepsInv st.steps st.ctr →
      stepsInv (parseExpressionF fuel st).1.steps (parseExpressionF fuel st).1.ctr) ∧
    (∀ (left : ExpressionNode) (st : RState), stepsInv st.steps st.ctr →
      stepsInv (parseELoopF fuel left st).1.steps (parseELoopF fuel left st).1.ctr) ∧
    (∀ st : RState, stepsInv st.steps st.ctr →
      stepsInv (parseTermF fuel st).1.steps (parseTermF fuel st).1.ctr) ∧
    (∀ (left : ExpressionNode) (st : RState), stepsInv st.steps st.ctr →
      stepsInv (parseTLoopF fuel left st).1.steps (parseTLoopF fuel left st).1.ctr) ∧
    (∀ (base : ExpressionNode) (st : RState), stepsInv st.steps st.ctr →
      stepsInv (parsePowF fuel base st).1.steps (parsePowF fuel base st).1.ctr) ∧
    (∀ st : RState, stepsInv st.steps st.ctr →
      stepsInv (parseFactorF fuel st).1.steps (parseFactorF fuel st).1.ctr) := by
  intro fuel
  induction fuel with
  | zero =>
    exact ⟨fun st h => h, fun _ st h => h, fun st h => h, fun _ st h => h,
      fun _ st h => h, fun st h => h⟩
  | succ fuel ih =>
    obtain ⟨ihE, ihEL, ihT, ihTL, ihP, ihF⟩ := ih
    refine ⟨?_, ?_, ?_, ?_, ?_, ?_⟩
    · intro st h
      simp only [parseExpressionF]
      rcases hT : parseTermF fuel st with ⟨st1, res⟩
      have h1 := ihT st h
      rw [hT] at h1
      cases res with
      | error e => exact h1
      | ok left => exact ihEL left st1 h1
    · intro left st h
      simp only [parseELoopF]
      cases hrest : st.rest with
      | nil => exact h
      | cons op rest' =>
        dsimp only
        by_cases hop : op = "+" ∨ op = "-"
        · rw [if_pos hop]
          rcases hT : parseTermF fuel st.advance with ⟨st2, res⟩
          have h2 := ihT st.advance (stepsInv_advance st h)
          rw [hT] at h2
          cases res with
          | error e => exact h2
          | ok right =>
            exact ihEL _ _ (stepsInv_combineOperator st2 op left right h2)
        · rw [if_neg hop]
          exact h
    · intro st h
      simp only [parseTermF]
      rcases hF : parseFactorF fuel st with ⟨st1, res⟩
      have h1 := ihF st h
      rw [hF] at h1
      cases res with
      | error e => exact h1
      | ok left => exact ihTL left st1 h1
    · intro left st h
      simp only [parseTLoopF]
      cases hrest : st.rest with
      | nil => exact h
      | cons op rest' =>
        dsimp only
        by_cases hop : op = "*" ∨ op = "/" ∨ op = "\\"
        · rw [if_pos hop]
          rcases hF : parseFactorF fuel st.advance with ⟨st2, res⟩
          have h2 := ihF st.advance (stepsInv_advance st h)
          rw [hF] at h2
          cases res with
          | error e => exact h2
          | ok right =>
            exact ihTL _ _ (stepsInv_combineOperator st2 op left right h2)
        · rw [if_neg hop]
          exact h
    · intro base st h
      simp only [parsePowF]
      by_cases hc : st.rest.head? = some "^"
      · rw [if_pos hc]
        rcases hF : parseFactorF fuel st.advance with ⟨st2, res⟩
        have h2 := ihF st.advance (stepsInv_advance st h)
        rw [hF] at h2
        cases res with
        | error e => exact h2
        | ok expR => exact stepsInv_combineOperator st2 "^" base expR h2
      · rw [if_neg hc]
        exact h
    · intro st h
      simp only [parseFactorF]
      cases hrest : st.rest with
      | nil => exact h
      | cons t rest' =>
        dsimp only
        by_cases h1 : t = "-"
        · rw [if_pos h1]
          rcases hF : parseFactorF fuel st.advance with ⟨st2, res⟩
          have h2 := ihF st.advance (stepsInv_advance st h)
          rw [hF] at h2
          cases res with
          | error e => exact h2
          | ok right => exact ihP _ _ (stepsInv_makeStep _ _ _ h2)
        · rw [if_neg h1]
          by_cases h2 : t = "("
          · rw [if_pos h2]
            rcases hE : parseExpressionF fuel st.advance with ⟨st2, res⟩
            have hi := ihE st.advance (stepsInv_advance st h)
            rw [hE] at hi
            cases res with
            | error e => exact hi
            | ok node =>
              dsimp only
              by_cases hp : st2.rest.head? = some ")"
              · rw [if_pos hp]
                exact ihP _ _ (stepsInv_makeStep _ _ _ hi)
              · rw [if_neg hp]
                exact hi
          · rw [if_neg h2]
            by_cases h3 : isNumberTok t = true
            · rw [if_pos h3]
              exact ihP _ _ (stepsInv_pushLeaf st.advance t .number h)
            · rw [if_neg h3]
              by_cases h4 : isIdentTok t = true
              · rw [if_pos h4]
                exact ihP _ _ (stepsInv_pushLeaf st.advance t .var h)
              · rw [if_neg h4]
                exact h

/-- C8: for every run of the postfix builder and of the virtual-stack
recursive-descent builder, successful or failed, the recorded step indices
are exactly `1, 2, ..., N` in order (no gaps, no repeats). -/
theorem c8_step_indices : ∀ input : String,
    (buildTreeFromPostfix input).steps.map (fun s => s.step) =
      List.range' 1 (buildTreeFromPostfix input).steps.length ∧
    (parseRecursiveInfix input).steps.map (fun s => s.step) =
      List.range' 1 (parseRecursiveInfix input).steps.length := by
  intro input
  constructor
  · obtain ⟨hsteps, _, _, _, _⟩ := buildTree_fields input
    obtain ⟨Δ, h1, _h2, _h3, h4, _h5⟩ := buildGo_spec (splitTokens input.data) [] [] 1 0
    have hΔ : (buildTreeFromPostfix input).steps = Δ := by
      rw [hsteps, h1]
      simp
    rw [hΔ]
    exact h4
  · simp only [parseRecursiveInfix]
    rcases hE : parseExpressionF (3 * (tokenizeChars input.data).length + 3)
        ⟨tokenizeChars input.data, 0, [], [], 1⟩ with ⟨st, res⟩
    have hinv : stepsInv st.steps st.ctr := by
      have h0 : stepsInv ([] : List BuildStep) 1 := ⟨rfl, rfl⟩
      have hi := (parse_inv (3 * (tokenizeChars input.data).length + 3)).1
        ⟨tokenizeChars input.data, 0, [], [], 1⟩ h0
      rw [hE] at hi
      exact hi
    cases res with
    | error msg => exact hinv.1
    | ok root =>
      dsimp only
      cases hrest : st.rest with
      | cons t r' => exact hinv.1
      | nil =>
        dsimp only
        by_cases hlen : st.vstack.length = 1
        · rw [if_pos hlen]
          exact (stepsInv_makeStep st "DONE" "Construcción finalizada (árbol completo)." hinv).1
        · rw [if_neg hlen]
          exact hinv.1

/-- C9: every input containing two adjacent operator characters is declared
invalid with the adjacent-operators violation; in particular `a++b` and
`a+-b` are rejected. -/
theorem c9_adjacent_operators :
    (∀ s : String, hasAdjacentOps s.data = true →
      "No se permiten operadores consecutivos." ∈ (validateExpression s).1 ∧
      (validateExpression s).2 = false) ∧
    validateExpression "a++b" = (["No se permiten operadores consecutivos."], false) ∧
    validateExpression "a+-b" = (["No se permiten operadores consecutivos."], false) := by
  refine ⟨fun s h => ?_, by decide, by decide⟩
  constructor
  · simp [validateExpression, h]
  · simp [validateExpression, h]

/-- C9 witness. -/
theorem c9_adjacent_operators_witness :
    hasAdjacentOps "a++b".data = true ∧
    ("No se permiten operadores consecutivos." ∈ (validateExpression "a++b").1 ∧
      (validateExpression "a++b").2 = false) :=
  ⟨by decide, c9_adjacent_operators.1 "a++b" (by decide)⟩

/-- C5: on seeing an incoming operator, the converter pops a stacked operator
exactly when its precedence is strictly greater, or equal while the incoming
operator is left-associative, under the table `+ -` = 1, `* / \` = 2,
`^` = 3 with `^` the only right-associative operator; consequently
`a^b^c ↦ a b c ^ ^` and `a-b+c ↦ a b - c +`. -/
theorem c5_pop_rule :
    (∀ (tok top : Char) (rest : List Char),
      isOperatorChar tok = true → isOperatorChar top = true →
      ((shuntPop tok (top :: rest)).1.head? = some (strOfChar top) ↔
        (claimPrec top > claimPrec tok ∨
          (claimPrec top = claimPrec tok ∧ claimLeftAssoc tok = true)))) ∧
    toPostfix "a^b^c" = .ok "a b c ^ ^" ∧
    toPostfix "a-b+c" = .ok "a b - c +" := by
  refine ⟨?_, by decide, by decide⟩
  intro tok top rest htok htop
  have htokm : tok ∈ (['+', '-', '*', '/', '\\', '^'] : List Char) := by
    simpa [isOperatorChar] using htok
  have htopm : top ∈ (['+', '-', '*', '/', '\\', '^'] : List Char) := by
    simpa [isOperatorChar] using htop
  fin_cases htokm <;> fin_cases htopm <;>
    simp [shuntPop, precedence, claimPrec, claimLeftAssoc, rightAssociative,
      isOperatorChar, strOfChar]

/-- C5 witness. -/
theorem c5_pop_rule_witness :
    isOperatorChar '*' = true ∧ isOperatorChar '+' = true ∧
    ((shuntPop '*' ('+' :: [])).1.head? = some (strOfChar '+') ↔
      (claimPrec '+' > claimPrec '*' ∨
        (claimPrec '+' = claimPrec '*' ∧ claimLeftAssoc '*' = true))) :=
  ⟨by decide, by decide, c5_pop_rule.1 '*' '+' [] (by decide) (by decide)⟩

/-- C3 (amended): in the virtual-stack builder every binary node creation
pops its two operands off the virtual stack and pushes the combined node,
and every leaf creation pushes; but the unary NEG creation pushes its node
without popping the operand, so after it the operand is still on the stack
below the new node (as the `-x` trace records). -/
theorem c3_stack_discipline :
    (∀ (st : RState) (op : String) (l r a b : ExpressionNode)
      (σ : List ExpressionNode), st.vstack = a :: b :: σ →
      (st.combineOperator op l r).1.vstack =
        ExpressionNode.mk (op ++ ":" ++ b.id ++ ":" ++ a.id) .operator op
          (some b) (some a) :: σ ∧
      (st.combineOperator op l r).2 =
        ExpressionNode.mk (op ++ ":" ++ b.id ++ ":" ++ a.id) .operator op
          (some b) (some a)) ∧
    (∀ (st : RState) (v : String) (ty : NodeType),
      (st.pushLeaf v ty).1.vstack = (st.pushLeaf v ty).2 :: st.vstack) ∧
    (parseRecursiveInfix "-x").steps.map
      (fun s => s.stackSnapshot.map (fun n => n.value)) = [["x"], ["x", "neg"]] := by
  refine ⟨?_, ?_, by decide⟩
  · intro st op l r a b σ hst
    cases st with
    | mk re po sp vs ct =>
      cases hst
      exact ⟨rfl, rfl⟩
  · intro st v ty
    rfl

/-- C3 witness. -/
theorem c3_stack_discipline_witness :
    ((RState.mk [] 0 [] [ExpressionNode.mk "a" .var "a" none none,
        ExpressionNode.mk "b" .var "b" none none] 1).combineOperator "+"
        (ExpressionNode.mk "L" .var "L" none none)
        (ExpressionNode.mk "R" .var "R" none none)).1.vstack =
      [ExpressionNode.mk ("+" ++ ":" ++ "b" ++ ":" ++ "a") .operator "+"
        (some (ExpressionNode.mk "b" .var "b" none none))
        (some (ExpressionNode.mk "a" .var "a" none none))] :=
  (c3_stack_discipline.1 _ "+" (ExpressionNode.mk "L" .var "L" none none)
    (ExpressionNode.mk "R" .var "R" none none)
    (ExpressionNode.mk "a" .var "a" none none)
    (ExpressionNode.mk "b" .var "b" none none) [] rfl).1

/-! ## Tokenizer and splitter unfolding lemmas -/

/-- The fueled tokenizer does not depend on the fuel, provided there is
enough of it. -/
theorem tokenizeF_irrel : ∀ (n : Nat) (l : List Char) (f g : Nat),
    l.length ≤ n → l.length < f → l.length < g → tokenizeF f l = tokenizeF g l := by
  intro n
  induction n with
  | zero =>
    intro l f g hn hf hg
    have hl : l = [] := List.eq_nil_of_length_eq_zero (Nat.le_zero.mp hn)
    subst hl
    match f, g, hf, hg with
    | f + 1, g + 1, _, _ => rfl
  | succ n ih =>
    intro l f g hn hf hg
    cases l with
    | nil =>
      match f, g, hf, hg with
      | f + 1, g + 1, _, _ => rfl
    | cons c cs =>
      match f, g, hf, hg with
      | f + 1, g + 1, hf, hg =>
        have hcs : cs.length ≤ n := by
          simp only [List.length_cons] at hn
          omega
        have hcf : cs.length < f := by
          simp only [List.length_cons] at hf
          omega
        have hcg : cs.length < g := by
          simp only [List.length_cons] at hg
          omega
        simp only [tokenizeF]
        by_cases h1 : opParenChar c = true
        · rw [if_pos h1, if_pos h1, ih cs f g hcs hcf hcg]
        · rw [if_neg h1, if_neg h1]
          by_cases h2 : c.isDigit = true
          · rw [if_pos h2, if_pos h2]
            have hd : ((c :: cs).dropWhile Char.isDigit).length ≤ cs.length := by
              rw [List.dropWhile_cons_of_pos h2]
              exact (List.dropWhile_sublist _).length_le
            rw [ih ((c :: cs).dropWhile Char.isDigit) f g (by omega) (by omega) (by omega)]
          · rw [if_neg h2, if_neg h2]
            by_cases h3 : c.isAlpha = true
            · rw [if_pos h3, if_pos h3]
              have hd : ((c :: cs).dropWhile Char.isAlpha).length ≤ cs.length := by
                rw [List.dropWhile_cons_of_pos h3]
                exact (List.dropWhile_sublist _).length_le
              rw [ih ((c :: cs).dropWhile Char.isAlpha) f g (by omega) (by omega) (by omega)]
            · rw [if_neg h3, if_neg h3, ih cs f g hcs hcf hcg]

/-- Unfolding: an operator or parenthesis is a one-character token. -/
theorem tokenizeChars_cons_op (c : Char) (cs : List Char) (h : opParenChar c = true) :
    tokenizeChars (c :: cs) = strOfChar c :: tokenizeChars cs := by
  show tokenizeF ((c :: cs).length + 1) (c :: cs) = _
  simp only [List.length_cons, tokenizeF]
  rw [if_pos h]
  rfl

/-- Unfolding: a digit starts a maximal digit-run token. -/
theorem tokenizeChars_cons_digit (c : Char) (cs : List Char)
    (h1 : opParenChar c = false) (h2 : c.isDigit = true) :
    tokenizeChars (c :: cs) = String.mk ((c :: cs).takeWhile Char.isDigit) ::
      tokenizeChars ((c :: cs).dropWhile Char.isDigit) := by
  show tokenizeF ((c :: cs).length + 1) (c :: cs) = _
  simp only [List.length_cons, tokenizeF]
  rw [if_neg (by simp [h1]), if_pos h2]
  have hd : ((c :: cs).dropWhile Char.isDigit).length ≤ cs.length := by
    rw [List.dropWhile_cons_of_pos h2]
    exact (List.dropWhile_sublist _).length_le
  rw [tokenizeF_irrel cs.length ((c :: cs).dropWhile Char.isDigit) (cs.length + 1)
    (((c :: cs).dropWhile Char.isDigit).length + 1) hd (by omega) (by omega)]
  rfl

/-- Unfolding: a letter starts a maximal letter-run token. -/
theorem tokenizeChars_cons_alpha (c : Char) (cs : List Char)
    (h1 : opParenChar c = false) (h2 : c.isDigit = false) (h3 : c.isAlpha = true) :
    tokenizeChars (c :: cs) = String.mk ((c :: cs).takeWhile Char.isAlpha) ::
      tokenizeChars ((c :: cs).dropWhile Char.isAlpha) := by
  show tokenizeF ((c :: cs).length + 1) (c :: cs) = _
  simp only [List.length_cons, tokenizeF]
  rw [if_neg (by simp [h1]), if_neg (by simp [h2]), if_pos h3]
  have hd : ((c :: cs).dropWhile Char.isAlpha).length ≤ cs.length := by
    rw [List.dropWhile_cons_of_pos h3]
    exact (List.dropWhile_sublist _).length_le
  rw [tokenizeF_irrel cs.length ((c :: cs).dropWhile Char.isAlpha) (cs.length + 1)
    (((c :: cs).dropWhile Char.isAlpha).length + 1) hd (by omega) (by omega)]
  rfl

/-- The fueled splitter does not depend on the fuel, provided there is enough
of it. -/
theorem splitTokensF_irrel : ∀ (n : Nat) (l : List Char) (f g : Nat),
    l.length ≤ n → l.length < f → l.length < g → splitTokensF f l = splitTokensF g l := by
  intro n
  induction n with
  | zero =>
    intro l f g hn hf hg
    have hl : l = [] := List.eq_nil_of_length_eq_zero (Nat.le_zero.mp hn)
    subst hl
    match f, g, hf, hg with
    | f + 1, g + 1, _, _ => rfl
  | succ n ih =>
    intro l f g hn hf hg
    cases l with
    | nil =>
      match f, g, hf, hg with
      | f + 1, g + 1, _, _ => rfl
    | cons c cs =>
      match f, g, hf, hg with
      | f + 1, g + 1, hf, hg =>
        have hcs : cs.length ≤ n := by
          simp only [List.length_cons] at hn
          omega
        have hcf : cs.length < f := by
          simp only [List.length_cons] at hf
          omega
        have hcg : cs.length < g := by
          simp only [List.length_cons] at hg
          omega
        simp only [splitTokensF]
        by_cases h1 : c.isWhitespace = true
        · rw [if_pos h1, if_pos h1, ih cs f g hcs hcf hcg]
        · rw [if_neg h1, if_neg h1]
          have hd : ((c :: cs).dropWhile (fun x => !x.isWhitespace)).length ≤ cs.length := by
            rw [List.dropWhile_cons_of_pos (by simp [h1])]
            exact (List.dropWhile_sublist _).length_le
          rw [ih ((c :: cs).dropWhile (fun x => !x.isWhitespace)) f g (by omega) (by omega)
            (by omega)]

/-- Unfolding: the splitter skips a whitespace character. -/
theorem splitTokens_cons_ws (c : Char) (cs : List Char) (h : c.isWhitespace = true) :
    splitTokens (c :: cs) = splitTokens cs := by
  show splitTokensF ((c :: cs).length + 1) (c :: cs) = _
  simp only [List.length_cons, splitTokensF]
  rw [if_pos h]
  exact splitTokensF_irrel cs.length cs (cs.length + 1) (cs.length + 1) le_rfl (by omega)
    (by omega)

/-- Unfolding: a non-whitespace character starts a maximal run token. -/
theorem splitTokens_cons (c : Char) (cs : List Char) (h : c.isWhitespace = false) :
    splitTokens (c :: cs) = String.mk ((c :: cs).takeWhile (fun x => !x.isWhitespace)) ::
      splitTokens ((c :: cs).dropWhile (fun x => !x.isWhitespace)) := by
  show splitTokensF ((c :: cs).length + 1) (c :: cs) = _
  simp only [List.length_cons, splitTokensF]
  rw [if_neg (by simp [h])]
  have hd : ((c :: cs).dropWhile (fun x => !x.isWhitespace)).length ≤ cs.length := by
    rw [List.dropWhile_cons_of_pos (by simp [h])]
    exact (List.dropWhile_sublist _).length_le
  rw [splitTokensF_irrel cs.length ((c :: cs).dropWhile (fun x => !x.isWhitespace))
    (cs.length + 1) (((c :: cs).dropWhile (fun x => !x.isWhitespace)).length + 1) hd
    (by omega) (by omega)]
  rfl

/-! ## Character-class and list helpers -/

/-- Operand characters are not operator characters. -/
theorem operand_not_operator (c : Char) (h : isOperandChar c = true) :
    isOperatorChar c = false := by
  cases hop : isOperatorChar c with
  | false => rfl
  | true =>
    have hc : c ∈ (['+', '-', '*', '/', '\\', '^'] : List Char) := by
      simpa [isOperatorChar] using hop
    fin_cases hc <;> exact absurd h (by decide)

/-- Operand characters are not operators or parentheses. -/
theorem operand_not_opParen (c : Char) (h : isOperandChar c = true) :
    opParenChar c = false := by
  cases hop : opParenChar c with
  | false => rfl
  | true =>
    have hc : c ∈ (['+', '-', '*', '/', '\\', '^', '(', ')'] : List Char) := by
      simpa [opParenChar] using hop
    fin_cases hc <;> exact absurd h (by decide)

/-- No character has precedence above 3. -/
theorem precedence_le_three (c : Char) : precedence c ≤ 3 := by
  unfold precedence
  split <;> omega

/-- Operator characters have precedence between 1 and 3. -/
theorem operator_prec_bounds (c : Char) (h : isOperatorChar c = true) :
    1 ≤ precedence c ∧ precedence c ≤ 3 := by
  have hc : c ∈ (['+', '-', '*', '/', '\\', '^'] : List Char) := by
    simpa [isOperatorChar] using h
  fin_cases hc <;> exact ⟨by decide, by decide⟩

/-- Operator characters are not parentheses. -/
theorem operator_ne_parens (c : Char) (h : isOperatorChar c = true) :
    c ≠ '(' ∧ c ≠ ')' := by
  have hc : c ∈ (['+', '-', '*', '/', '\\', '^'] : List Char) := by
    simpa [isOperatorChar] using h
  fin_cases hc <;> exact ⟨by decide, by decide⟩

/-- `takeWhile` of a list all of whose elements satisfy the predicate. -/
theorem takeWhile_all {p : Char → Bool} : ∀ (l : List Char),
    (∀ a ∈ l, p a = true) → l.takeWhile p = l := by
  intro l
  induction l with
  | nil => intro _; rfl
  | cons c cs ih =>
    intro h
    rw [List.takeWhile_cons_of_pos (h c (by simp))]
    rw [ih (fun a ha => h a (by simp [ha]))]

/-- `dropWhile` of a list all of whose elements satisfy the predicate. -/
theorem dropWhile_all {p : Char → Bool} : ∀ (l : List Char),
    (∀ a ∈ l, p a = true) → l.dropWhile p = [] := by
  intro l
  induction l with
  | nil => intro _; rfl
  | cons c cs ih =>
    intro h
    rw [List.dropWhile_cons_of_pos (h c (by simp))]
    exact ih (fun a ha => h a (by simp [ha]))

/-- `takeWhile` stops exactly at the first failing element after a run. -/
theorem takeWhile_append_run {p : Char → Bool} : ∀ (l r : List Char),
    (∀ a ∈ l, p a = true) → (∀ c, r.head? = some c → p c = false) →
    (l ++ r).takeWhile p = l := by
  intro l r hl hr
  induction l with
  | nil =>
    cases r with
    | nil => rfl
    | cons c r' => exact List.takeWhile_cons_of_neg (by simp [hr c rfl])
  | cons c cs ih =>
    rw [List.cons_append, List.takeWhile_cons_of_pos (hl c (by simp))]
    rw [ih (fun a ha => hl a (by simp [ha]))]

/-- `dropWhile` removes exactly the initial run. -/
theorem dropWhile_append_run {p : Char → Bool} : ∀ (l r : List Char),
    (∀ a ∈ l, p a = true) → (∀ c, r.head? = some c → p c = false) →
    (l ++ r).dropWhile p = r := by
  intro l r hl hr
  induction l with
  | nil =>
    cases r with
    | nil => rfl
    | cons c r' => exact List.dropWhile_cons_of_neg (by simp [hr c rfl])
  | cons c cs ih =>
    rw [List.cons_append, List.dropWhile_cons_of_pos (hl c (by simp))]
    exact ih (fun a ha => hl a (by simp [ha]))

/-- Splitting the space-joined rendering of good tokens recovers the
tokens. -/
theorem splitTokens_joinSpace : ∀ toks : List String,
    (∀ t ∈ toks, goodTok t = true) → splitTokens (joinSpace toks).data = toks := by
  intro toks
  induction toks with
  | nil => intro _; rfl
  | cons t ts ih =>
    intro hgood
    have hg := hgood t (by simp)
    have hne : t.data ≠ [] := by
      simp only [goodTok, Bool.and_eq_true, decide_eq_true_eq] at hg
      exact hg.1
    have hall : ∀ a ∈ t.data, (!a.isWhitespace) = true := by
      simp only [goodTok, Bool.and_eq_true, List.all_eq_true] at hg
      exact hg.2
    cases ts with
    | nil =>
      show splitTokens t.data = [t]
      cases hd : t.data with
      | nil => exact absurd hd hne
      | cons c cs =>
        have hcw : c.isWhitespace = false := by
          have := hall c (by rw [hd]; simp)
          simpa using this
        rw [splitTokens_cons c cs hcw]
        have hrun : ∀ a ∈ c :: cs, (fun x => !x.isWhitespace) a = true := by
          intro a ha
          exact hall a (by rw [hd]; exact ha)
        rw [takeWhile_all _ hrun, dropWhile_all _ hrun]
        rw [← hd]
        rfl
    | cons t2 ts2 =>
      have hjd : (joinSpace (t :: t2 :: ts2)).data =
          t.data ++ ' ' :: (joinSpace (t2 :: ts2)).data := by
        show (t ++ " " ++ joinSpace (t2 :: ts2)).data = _
        rw [String.data_append, String.data_append, List.append_assoc]
        rfl
      rw [hjd]
      cases hd : t.data with
      | nil => exact absurd hd hne
      | cons c cs =>
        have hcw : c.isWhitespace = false := by
          have := hall c (by rw [hd]; simp)
          simpa using this
        rw [List.cons_append]
        rw [splitTokens_cons c (cs ++ ' ' :: (joinSpace (t2 :: ts2)).data) hcw]
        have hrun : ∀ a ∈ c :: cs, (fun x => !x.isWhitespace) a = true := by
          intro a ha
          exact hall a (by rw [hd]; exact ha)
        have hstop : ∀ d, (' ' :: (joinSpace (t2 :: ts2)).data).head? = some d →
            (fun x => !x.isWhitespace) d = false := by
          intro d hdh
          cases hdh
          decide
        rw [← List.cons_append]
        rw [takeWhile_append_run (c :: cs) _ hrun hstop,
          dropWhile_append_run (c :: cs) _ hrun hstop]
        rw [splitTokens_cons_ws ' ' _ (by decide)]
        rw [ih (fun u hu => hgood u (by simp [hu]))]
        rw [← hd]

/-- Operator characters are not operand characters. -/
theorem operator_not_operand (c : Char) (h : isOperatorChar c = true) :
    isOperandChar c = false := by
  have hc : c ∈ (['+', '-', '*', '/', '\\', '^'] : List Char) := by
    simpa [isOperatorChar] using h
  fin_cases hc <;> decide

theorem flatChars_nil : flatChars [] = [] := rfl

theorem flatChars_cons (t : String) (ts : List String) :
    flatChars (t :: ts) = t.data ++ flatChars ts := by
  simp [flatChars]

theorem flatChars_append (ts1 ts2 : List String) :
    flatChars (ts1 ++ ts2) = flatChars ts1 ++ flatChars ts2 := by
  simp [flatChars]

/-- An expression-tail derivation is empty or starts with an operator
token. -/
theorem gr_etail_shape {ts : List String} {acc r : ExprS} (h : Gr 3 ts acc r) :
    ts = [] ∨ ∃ (c : Char) (ts'' : List String),
      isOperatorChar c = true ∧ ts = strOfChar c :: ts'' := by
  cases h with
  | eNil => exact Or.inl rfl
  | eCons hop h1 h3 =>
    right
    rcases hop with h | h
    · subst h
      exact ⟨'+', _, by decide, rfl⟩
    · subst h
      exact ⟨'-', _, by decide, rfl⟩

/-- A term-tail derivation is empty or starts with an operator token. -/
theorem gr_ttail_shape {ts : List String} {acc r : ExprS} (h : Gr 4 ts acc r) :
    ts = [] ∨ ∃ (c : Char) (ts'' : List String),
      isOperatorChar c = true ∧ ts = strOfChar c :: ts'' := by
  cases h with
  | tNil => exact Or.inl rfl
  | tCons hop h2 h4 =>
    right
    rcases hop with h | h | h
    · subst h
      exact ⟨'*', _, by decide, rfl⟩
    · subst h
      exact ⟨'/', _, by decide, rfl⟩
    · subst h
      exact ⟨'\\', _, by decide, rfl⟩

/-- The infix string of a tail derivation followed by a good rest never
starts with an operand character. -/
theorem tail_headNotAlnum {ts : List String} {acc r : ExprS} {lvl : Nat}
    (h : Gr lvl ts acc r) (h34 : lvl = 3 ∨ lvl = 4) (rest : List Char)
    (hrest : headNotAlnum rest) : headNotAlnum (flatChars ts ++ rest) := by
  have hshape : ts = [] ∨ ∃ (c : Char) (ts'' : List String),
      isOperatorChar c = true ∧ ts = strOfChar c :: ts'' := by
    rcases h34 with h3 | h4
    · subst h3
      exact gr_etail_shape h
    · subst h4
      exact gr_ttail_shape h
  rcases hshape with hnil | ⟨c, ts'', hc, hts⟩
  · subst hnil
    simpa [flatChars] using hrest
  · subst hts
    rw [flatChars_cons]
    show headNotAlnum ((strOfChar c).data ++ flatChars ts'' ++ rest)
    simp only [strOfChar, List.cons_append]
    exact operator_not_operand c hc

/-- Tokenizing the infix rendering of a grammar derivation recovers exactly
its token list (the following characters must not begin with an operand
character, so operand runs do not merge). -/
theorem gr_tokenize : ∀ {lvl : Nat} {ts : List String} {acc r : ExprS},
    Gr lvl ts acc r → ∀ rest : List Char, headNotAlnum rest →
      tokenizeChars (flatChars ts ++ rest) = ts ++ tokenizeChars rest := by
  intro lvl ts acc r h
  induction h with
  | @fLeaf c hc =>
    intro rest hrest
    rw [flatChars_cons, flatChars_nil, List.append_nil]
    show tokenizeChars (c :: rest) = strOfChar c :: tokenizeChars rest
    have hndig : ∀ d, rest.head? = some d → d.isDigit = false := by
      intro d hd
      cases rest with
      | nil => cases hd
      | cons x xs =>
        cases hd
        simp only [headNotAlnum, isOperandChar, Bool.or_eq_false_iff] at hrest
        exact hrest.2
    have hnalpha : ∀ d, rest.head? = some d → d.isAlpha = false := by
      intro d hd
      cases rest with
      | nil => cases hd
      | cons x xs =>
        cases hd
        simp only [headNotAlnum, isOperandChar, Bool.or_eq_false_iff] at hrest
        exact hrest.1
    cases hdig : c.isDigit with
    | true =>
      rw [tokenizeChars_cons_digit c rest (operand_not_opParen c hc) hdig]
      rw [show c :: rest = [c] ++ rest from rfl]
      rw [takeWhile_append_run [c] rest (by simpa using hdig) hndig]
      rw [dropWhile_append_run [c] rest (by simpa using hdig) hndig]
      rfl
    | false =>
      have halpha : c.isAlpha = true := by
        simp only [isOperandChar, Bool.or_eq_true] at hc
        rcases hc with h | h
        · exact h
        · rw [hdig] at h
          cases h
      rw [tokenizeChars_cons_alpha c rest (operand_not_opParen c hc) hdig halpha]
      rw [show c :: rest = [c] ++ rest from rfl]
      rw [takeWhile_append_run [c] rest (by simpa using halpha) hnalpha]
      rw [dropWhile_append_run [c] rest (by simpa using halpha) hnalpha]
      rfl
  | @fPow c ts2 e2 hc h2 ih2 =>
    intro rest hrest
    rw [flatChars_cons, flatChars_cons]
    show tokenizeChars ([c] ++ (['^'] ++ flatChars ts2) ++ rest) = _
    rw [List.append_assoc, List.append_assoc]
    show tokenizeChars (c :: ('^' :: (flatChars ts2 ++ rest))) = _
    have hstop : ∀ d, ('^' :: (flatChars ts2 ++ rest)).head? = some d →
        d.isDigit = false := by
      intro d hd
      cases hd
      decide
    have hstopA : ∀ d, ('^' :: (flatChars ts2 ++ rest)).head? = some d →
        d.isAlpha = false := by
      intro d hd
      cases hd
      decide
    have hleaf : tokenizeChars (c :: ('^' :: (flatChars ts2 ++ rest))) =
        strOfChar c :: tokenizeChars ('^' :: (flatChars ts2 ++ rest)) := by
      cases hdig : c.isDigit with
      | true =>
        rw [tokenizeChars_cons_digit c _ (operand_not_opParen c hc) hdig]
        rw [show c :: ('^' :: (flatChars ts2 ++ rest)) =
          [c] ++ ('^' :: (flatChars ts2 ++ rest)) from rfl]
        rw [takeWhile_append_run [c] _ (by simpa using hdig) hstop]
        rw [dropWhile_append_run [c] _ (by simpa using hdig) hstop]
        rfl
      | false =>
        have halpha : c.isAlpha = true := by
          simp only [isOperandChar, Bool.or_eq_true] at hc
          rcases hc with h | h
          · exact h
          · rw [hdig] at h
            cases h
        rw [tokenizeChars_cons_alpha c _ (operand_not_opParen c hc) hdig halpha]
        rw [show c :: ('^' :: (flatChars ts2 ++ rest)) =
          [c] ++ ('^' :: (flatChars ts2 ++ rest)) from rfl]
        rw [takeWhile_append_run [c] _ (by simpa using halpha) hstopA]
        rw [dropWhile_append_run [c] _ (by simpa using halpha) hstopA]
        rfl
    rw [hleaf]
    rw [tokenizeChars_cons_op '^' _ (by decide)]
    rw [ih2 rest hrest]
    rfl
  | @fParen ts e h0 ih0 =>
    intro rest hrest
    rw [flatChars_append, flatChars_cons, flatChars_cons, flatChars_nil,
      List.append_nil, List.append_assoc, List.append_assoc]
    show tokenizeChars ('(' :: (flatChars ts ++ (')' :: rest))) = _
    rw [tokenizeChars_cons_op '(' _ (by decide)]
    rw [ih0 (')' :: rest) (by show isOperandChar ')' = false; decide)]
    rw [tokenizeChars_cons_op ')' _ (by decide)]
    rw [List.append_assoc]
    rfl
  | @fParenPow ts e ts2 e2 h0 h2 ih0 ih2 =>
    intro rest hrest
    rw [flatChars_append, flatChars_cons, flatChars_cons, flatChars_cons,
      List.append_assoc, List.append_assoc]
    show tokenizeChars ('(' :: (flatChars ts ++ (')' :: ('^' :: (flatChars ts2 ++
      rest))))) = _
    rw [tokenizeChars_cons_op '(' _ (by decide)]
    rw [ih0 (')' :: ('^' :: (flatChars ts2 ++ rest)))
      (by show isOperandChar ')' = false; decide)]
    rw [tokenizeChars_cons_op ')' _ (by decide)]
    rw [tokenizeChars_cons_op '^' _ (by decide)]
    rw [ih2 rest hrest]
    rw [List.append_assoc]
    rfl
  | tNil =>
    intro rest hrest
    rw [flatChars_nil]
    rfl
  | eNil =>
    intro rest hrest
    rw [flatChars_nil]
    rfl
  | @tCons op ts2 e2 ts' acc r hop h2 h4 ih2 ih4 =>
    intro rest hrest
    have htail : headNotAlnum (flatChars ts' ++ rest) :=
      tail_headNotAlnum h4 (Or.inr rfl) rest hrest
    have step : ∀ (c : Char), op = strOfChar c → opParenChar c = true →
        tokenizeChars (flatChars ((op :: ts2) ++ ts') ++ rest) =
          ((op :: ts2) ++ ts') ++ tokenizeChars rest := by
      intro c hopc hcp
      rw [flatChars_append, flatChars_cons, List.append_assoc, List.append_assoc]
      subst hopc
      show tokenizeChars (c :: (flatChars ts2 ++ (flatChars ts' ++ rest))) = _
      rw [tokenizeChars_cons_op c _ hcp]
      rw [ih2 (flatChars ts' ++ rest) htail]
      rw [ih4 rest hrest]
      rw [List.append_assoc]
      rfl
    rcases hop with h | h | h
    · subst h
      exact step '*' rfl (by decide)
    · subst h
      exact step '/' rfl (by decide)
    · subst h
      exact step '\\' rfl (by decide)
  | @eCons op ts2 e2 ts' acc r hop h1 h3 ih1 ih3 =>
    intro rest hrest
    have htail : headNotAlnum (flatChars ts' ++ rest) :=
      tail_headNotAlnum h3 (Or.inl rfl) rest hrest
    have step : ∀ (c : Char), op = strOfChar c → opParenChar c = true →
        tokenizeChars (flatChars ((op :: ts2) ++ ts') ++ rest) =
          ((op :: ts2) ++ ts') ++ tokenizeChars rest := by
      intro c hopc hcp
      rw [flatChars_append, flatChars_cons, List.append_assoc, List.append_assoc]
      subst hopc
      show tokenizeChars (c :: (flatChars ts2 ++ (flatChars ts' ++ rest))) = _
      rw [tokenizeChars_cons_op c _ hcp]
      rw [ih1 (flatChars ts' ++ rest) htail]
      rw [ih3 rest hrest]
      rw [List.append_assoc]
      rfl
    rcases hop with h | h
    · subst h
      exact step '+' rfl (by decide)
    · subst h
      exact step '-' rfl (by decide)
  | @tRule ts e ts' r h2 h4 ih2 ih4 =>
    intro rest hrest
    rw [flatChars_append, List.append_assoc]
    rw [ih2 (flatChars ts' ++ rest)
      (tail_headNotAlnum h4 (Or.inr rfl) rest hrest)]
    rw [ih4 rest hrest]
    simp
  | @eRule ts e ts' r h1 h3 ih1 ih3 =>
    intro rest hrest
    rw [flatChars_append, List.append_assoc]
    rw [ih1 (flatChars ts' ++ rest)
      (tail_headNotAlnum h3 (Or.inl rfl) rest hrest)]
    rw [ih3 rest hrest]
    simp

/-! ## Shunting-yard stack lemmas -/

/-- `shuntPop` never pops for an incoming `^` (nothing has precedence above
3, and `^` is right-associative). -/
theorem shuntPop_caret (stk : List Char) : shuntPop '^' stk = ([], stk) := by
  cases stk with
  | nil => rfl
  | cons d rest =>
    have hblock : ¬(isOperatorChar d = true ∧
        (precedence d > precedence '^' ∨
          (precedence d = precedence '^' ∧ rightAssociative '^' = false))) := by
      rintro ⟨_hop, hgt | ⟨_heq, hra⟩⟩
      · have := precedence_le_three d
        have hp : precedence '^' = 3 := by decide
        omega
      · exact absurd hra (by decide)
    simp only [shuntPop, if_neg hblock]

/-- `shuntPop` pops nothing when the stack top does not satisfy the popping
condition. -/
theorem shuntPop_blocked (tok : Char) (stk : List Char)
    (h : ∀ d, stk.head? = some d → ¬(isOperatorChar d = true ∧
      (precedence d > precedence tok ∨
        (precedence d = precedence tok ∧ rightAssociative tok = false)))) :
    shuntPop tok stk = ([], stk) := by
  cases stk with
  | nil => rfl
  | cons d rest => simp only [shuntPop, if_neg (h d rfl)]

/-- `shuntPop` pops exactly a segment of poppable operators, stopping at a
blocked stack. -/
theorem shuntPop_seg (tok : Char) : ∀ (S stk : List Char),
    (∀ c ∈ S, isOperatorChar c = true ∧
      (precedence c > precedence tok ∨
        (precedence c = precedence tok ∧ rightAssociative tok = false))) →
    (∀ d, stk.head? = some d → ¬(isOperatorChar d = true ∧
      (precedence d > precedence tok ∨
        (precedence d = precedence tok ∧ rightAssociative tok = false)))) →
    shuntPop tok (S ++ stk) = (S.map strOfChar, stk) := by
  intro S
  induction S with
  | nil =>
    intro stk _ hstk
    exact shuntPop_blocked tok stk hstk
  | cons c S' ih =>
    intro stk hS hstk
    rw [List.cons_append]
    simp only [shuntPop, if_pos (hS c (by simp))]
    rw [ih stk (fun a ha => hS a (by simp [ha])) hstk]
    rfl

/-- `popUntilParen` pops a parenthesis-free segment down to the matching
`(`, which it discards. -/
theorem popUntilParen_seg : ∀ (S stk : List Char), (∀ c ∈ S, c ≠ '(') →
    popUntilParen (S ++ '(' :: stk) = some (S.map strOfChar, stk) := by
  intro S
  induction S with
  | nil =>
    intro stk _
    simp [popUntilParen]
  | cons c S' ih =>
    intro stk hS
    rw [List.cons_append]
    simp only [popUntilParen, if_neg (hS c (by simp))]
    rw [ih stk (fun a ha => hS a (by simp [ha]))]
    rfl

/-- Draining a parenthesis-free stack emits it in pop order. -/
theorem drainStack_ops : ∀ S : List Char, (∀ c ∈ S, c ≠ '(' ∧ c ≠ ')') →
    drainStack S = .ok (S.map strOfChar) := by
  intro S
  induction S with
  | nil => intro _; rfl
  | cons c S' ih =>
    intro hS
    have hc := hS c (by simp)
    have hcond : ¬(c = '(' ∨ c = ')') := by
      rintro (h | h)
      · exact hc.1 h
      · exact hc.2 h
    simp only [drainStack, if_neg hcond]
    rw [ih (fun a ha => hS a (by simp [ha]))]
    rfl

/-- `shuntGo` on an operand character. -/
theorem shuntGo_operand (c : Char) (cs : List Char) (out : List String)
    (stk : List Char) (h : isOperandChar c = true) :
    shuntGo (c :: cs) out stk = shuntGo cs (out ++ [strOfChar c]) stk := by
  simp only [shuntGo, if_pos h]

/-- `shuntGo` on an operator character. -/
theorem shuntGo_operator (c : Char) (cs : List Char) (out : List String)
    (stk : List Char) (h1 : isOperandChar c = false) (h2 : isOperatorChar c = true) :
    shuntGo (c :: cs) out stk =
      shuntGo cs (out ++ (shuntPop c stk).1) (c :: (shuntPop c stk).2) := by
  simp only [shuntGo, h1, h2, Bool.false_eq_true, if_false, if_pos]

/-- `shuntGo` on `(`. -/
theorem shuntGo_lparen (cs : List Char) (out : List String) (stk : List Char) :
    shuntGo ('(' :: cs) out stk = shuntGo cs out ('(' :: stk) := by
  simp only [shuntGo]
  rw [if_neg (by decide), if_neg (by decide), if_pos trivial]

/-- `shuntGo` on `)` above a parenthesis-free segment and its matching
`(`. -/
theorem shuntGo_rparen_seg (cs : List Char) (out : List String) (S stk : List Char)
    (hS : ∀ c ∈ S, c ≠ '(') :
    shuntGo (')' :: cs) out (S ++ '(' :: stk) =
      shuntGo cs (out ++ S.map strOfChar) stk := by
  simp only [shuntGo]
  rw [if_neg (by decide), if_neg (by decide), if_neg (by decide), if_pos trivial]
  rw [popUntilParen_seg S stk hS]

/-- `shuntGo` at the end of input over an operator-only stack. -/
theorem shuntGo_nil_ops (out : List String) (S : List Char) (h : opSeg S) :
    shuntGo [] out S = .ok (out ++ S.map strOfChar) := by
  simp only [shuntGo]
  rw [drainStack_ops S (fun c hc => operator_ne_parens c (h c hc))]

/-- An operator of precedence ≥ 2 is popped by an incoming `* / \`. -/
theorem seg_pop_mul {tok : Char} (htok : tok = '*' ∨ tok = '/' ∨ tok = '\\')
    {S : List Char} (hS : ge2Seg S) :
    ∀ c ∈ S, isOperatorChar c = true ∧
      (precedence c > precedence tok ∨
        (precedence c = precedence tok ∧ rightAssociative tok = false)) := by
  intro c hc
  obtain ⟨hop, hge⟩ := hS c hc
  have hp2 : precedence tok = 2 := by
    rcases htok with h | h | h <;> subst h <;> decide
  have hra : rightAssociative tok = false := by
    rcases htok with h | h | h <;> subst h <;> decide
  refine ⟨hop, ?_⟩
  rcases Nat.lt_or_ge 2 (precedence c) with hgt | hle
  · exact Or.inl (by omega)
  · exact Or.inr ⟨by omega, hra⟩

/-- Any operator is popped by an incoming `+ -`. -/
theorem seg_pop_add {tok : Char} (htok : tok = '+' ∨ tok = '-')
    {S : List Char} (hS : opSeg S) :
    ∀ c ∈ S, isOperatorChar c = true ∧
      (precedence c > precedence tok ∨
        (precedence c = precedence tok ∧ rightAssociative tok = false)) := by
  intro c hc
  have hop := hS c hc
  have hb := operator_prec_bounds c hop
  have hp1 : precedence tok = 1 := by
    rcases htok with h | h <;> subst h <;> decide
  have hra : rightAssociative tok = false := by
    rcases htok with h | h <;> subst h <;> decide
  refine ⟨hop, ?_⟩
  rcases Nat.lt_or_ge 1 (precedence c) with hgt | hle
  · exact Or.inl (by omega)
  · exact Or.inr ⟨by omega, hra⟩

/-- A `stkOK2` stack top blocks an incoming `* / \`. -/
theorem blocked_mul {tok : Char} (htok : tok = '*' ∨ tok = '/' ∨ tok = '\\')
    {stk : List Char} (h : stkOK2 stk) :
    ∀ d, stk.head? = some d → ¬(isOperatorChar d = true ∧
      (precedence d > precedence tok ∨
        (precedence d = precedence tok ∧ rightAssociative tok = false))) := by
  intro d hd
  cases stk with
  | nil => cases hd
  | cons x xs =>
    cases hd
    have hp2 : precedence tok = 2 := by
      rcases htok with h' | h' | h' <;> subst h' <;> decide
    rintro ⟨hop, hcase⟩
    rcases h with hno | hlt
    · rw [hno] at hop
      cases hop
    · rcases hcase with hgt | ⟨heq, _⟩ <;> omega

/-- A `stkOK1` stack top blocks an incoming `+ -`. -/
theorem blocked_add {stk : List Char} (h : stkOK1 stk) :
    ∀ (tok : Char) d, stk.head? = some d → ¬(isOperatorChar d = true ∧
      (precedence d > precedence tok ∨
        (precedence d = precedence tok ∧ rightAssociative tok = false))) := by
  intro tok d hd
  cases stk with
  | nil => cases hd
  | cons x xs =>
    cases hd
    rintro ⟨hop, _⟩
    rw [h] at hop
    cases hop

/-- Shunting-yard correctness over the grammar: processing the infix
characters of a derivation appends the post-order tokens to the output,
except for a pending operator segment left on the stack (see
`ShuntMotive`). -/
theorem gr_shunt : ∀ {lvl : Nat} {ts : List String} {acc r : ExprS},
    Gr lvl ts acc r → ShuntMotive lvl ts acc r := by
  intro lvl ts acc r h
  induction h with
  | @fLeaf c hc =>
    intro rest out stk
    refine ⟨[strOfChar c], 0, by simp [poT], ?_⟩
    rw [flatChars_cons, flatChars_nil, List.append_nil]
    show shuntGo (c :: rest) out stk = _
    rw [shuntGo_operand c rest out stk hc]
    simp
  | @fPow c ts2 e2 hc h2 ih2 =>
    intro rest out stk
    obtain ⟨P2, k2, hd2, he2⟩ := ih2 rest (out ++ [strOfChar c]) ('^' :: stk)
    refine ⟨[strOfChar c] ++ P2, k2 + 1, ?_, ?_⟩
    · show poT (.bin "^" (.leaf (strOfChar c)) e2) = _
      simp only [poT, hd2]
      rw [List.replicate_succ']
      simp [List.append_assoc]
    · rw [flatChars_cons, flatChars_cons, List.append_assoc, List.append_assoc]
      show shuntGo (c :: ('^' :: (flatChars ts2 ++ rest))) out stk = _
      rw [shuntGo_operand c _ out stk hc]
      rw [shuntGo_operator '^' _ _ _ (by decide) (by decide)]
      rw [shuntPop_caret stk]
      simp only [List.append_nil]
      rw [he2]
      rw [List.replicate_succ']
      simp [List.append_assoc]
  | @fParen ts e h0 ih0 =>
    intro rest out stk
    obtain ⟨PE, SE, hdE, hopE, heE⟩ := ih0 (')' :: rest) out ('(' :: stk)
      (by show isOperatorChar '(' = false; decide)
    refine ⟨poT e, 0, by simp, ?_⟩
    rw [flatChars_append, flatChars_cons, flatChars_cons, flatChars_nil,
      List.append_nil, List.append_assoc, List.append_assoc]
    show shuntGo ('(' :: (flatChars ts ++ (')' :: rest))) out stk = _
    rw [shuntGo_lparen, heE]
    rw [shuntGo_rparen_seg rest (out ++ PE) SE stk
      (fun c hcm => (operator_ne_parens c (hopE c hcm)).1)]
    rw [hdE]
    simp [List.append_assoc]
  | @fParenPow ts e ts2 e2 h0 h2 ih0 ih2 =>
    intro rest out stk
    obtain ⟨PE, SE, hdE, hopE, heE⟩ :=
      ih0 (')' :: ('^' :: (flatChars ts2 ++ rest))) out ('(' :: stk)
        (by show isOperatorChar '(' = false; decide)
    obtain ⟨P2, k2, hd2, he2⟩ := ih2 rest (out ++ poT e) ('^' :: stk)
    refine ⟨poT e ++ P2, k2 + 1, ?_, ?_⟩
    · show poT (.bin "^" e e2) = _
      simp only [poT, hd2]
      rw [List.replicate_succ']
      simp [List.append_assoc]
    · rw [flatChars_append, flatChars_cons, flatChars_cons, flatChars_cons,
        List.append_assoc, List.append_assoc]
      show shuntGo ('(' :: (flatChars ts ++ (')' :: ('^' :: (flatChars ts2 ++
        rest))))) out stk = _
      rw [shuntGo_lparen, heE]
      rw [shuntGo_rparen_seg _ (out ++ PE) SE stk
        (fun c hcm => (operator_ne_parens c (hopE c hcm)).1)]
      rw [shuntGo_operator '^' _ _ _ (by decide) (by decide)]
      rw [shuntPop_caret stk]
      simp only [List.append_nil]
      have hout : ((out ++ PE) ++ SE.map strOfChar) = out ++ poT e := by
        rw [hdE]
        simp [List.append_assoc]
      rw [hout, he2]
      rw [List.replicate_succ']
      simp [List.append_assoc]
  | tNil =>
    intro rest out stk A SA hstk hseg hdec
    exact ⟨A, SA, hdec, hseg, rfl⟩
  | eNil =>
    intro rest out stk A SA hstk hseg hdec
    exact ⟨A, SA, hdec, hseg, rfl⟩
  | @tCons op ts2 e2 ts' acc r hop h2 h4 ih2 ih4 =>
    intro rest out stk A SA hstk hseg hdec
    have hex : ∃ c : Char, op = strOfChar c ∧ isOperandChar c = false ∧
        isOperatorChar c = true ∧ (c = '*' ∨ c = '/' ∨ c = '\\') := by
      rcases hop with h | h | h
      · exact ⟨'*', by rw [h]; rfl, by decide, by decide, Or.inl rfl⟩
      · exact ⟨'/', by rw [h]; rfl, by decide, by decide, Or.inr (Or.inl rfl)⟩
      · exact ⟨'\\', by rw [h]; rfl, by decide, by decide, Or.inr (Or.inr rfl)⟩
    obtain ⟨c, hopc, hnd, hno, hcm⟩ := hex
    subst hopc
    obtain ⟨P2, k2, hd2, he2⟩ :=
      ih2 (flatChars ts' ++ rest) ((out ++ A) ++ SA.map strOfChar) (c :: stk)
    have hge2' : ge2Seg (List.replicate k2 '^' ++ [c]) := by
      intro d hd
      rcases List.mem_append.mp hd with hmem | hmem
      · have := List.eq_of_mem_replicate hmem
        subst this
        exact ⟨by decide, by decide⟩
      · have : d = c := by simpa using hmem
        subst this
        refine ⟨hno, ?_⟩
        rcases hcm with h | h | h <;> subst h <;> decide
    have hdec' : poT (.bin (strOfChar c) acc e2) =
        (poT acc ++ P2) ++ (List.replicate k2 '^' ++ [c]).map strOfChar := by
      show poT acc ++ poT e2 ++ [strOfChar c] = _
      rw [hd2]
      simp [List.append_assoc, List.map_replicate,
        show strOfChar '^' = "^" from rfl]
    obtain ⟨P, S, hdP, hgeS, heS⟩ :=
      ih4 rest out stk (poT acc ++ P2) (List.replicate k2 '^' ++ [c]) hstk hge2' hdec'
    refine ⟨P, S, hdP, hgeS, ?_⟩
    rw [flatChars_append, flatChars_cons, List.append_assoc, List.append_assoc]
    show shuntGo (c :: (flatChars ts2 ++ (flatChars ts' ++ rest))) (out ++ A)
      (SA ++ stk) = _
    rw [shuntGo_operator c _ _ _ hnd hno]
    rw [shuntPop_seg c SA stk (seg_pop_mul hcm hseg) (blocked_mul hcm hstk)]
    rw [he2]
    have hout : (((out ++ A) ++ SA.map strOfChar) ++ P2) = out ++ (poT acc ++ P2) := by
      rw [hdec]
      simp [List.append_assoc]
    have hstk2 : List.replicate k2 '^' ++ (c :: stk) =
        (List.replicate k2 '^' ++ [c]) ++ stk := by
      simp [List.append_assoc]
    rw [hout, hstk2, heS]
  | @eCons op ts2 e2 ts' acc r hop h1 h3 ih1 ih3 =>
    intro rest out stk A SA hstk hseg hdec
    have hex : ∃ c : Char, op = strOfChar c ∧ isOperandChar c = false ∧
        isOperatorChar c = true ∧ (c = '+' ∨ c = '-') ∧ precedence c = 1 := by
      rcases hop with h | h
      · exact ⟨'+', by rw [h]; rfl, by decide, by decide, Or.inl rfl, by decide⟩
      · exact ⟨'-', by rw [h]; rfl, by decide, by decide, Or.inr rfl, by decide⟩
    obtain ⟨c, hopc, hnd, hno, hcm, hprec⟩ := hex
    subst hopc
    obtain ⟨P2, S2, hd2, hge2, he2⟩ :=
      ih1 (flatChars ts' ++ rest) ((out ++ A) ++ SA.map strOfChar) (c :: stk)
        (Or.inr (by omega))
    have hop' : opSeg (S2 ++ [c]) := by
      intro d hd
      rcases List.mem_append.mp hd with hmem | hmem
      · exact (hge2 d hmem).1
      · have : d = c := by simpa using hmem
        subst this
        exact hno
    have hdec' : poT (.bin (strOfChar c) acc e2) =
        (poT acc ++ P2) ++ (S2 ++ [c]).map strOfChar := by
      show poT acc ++ poT e2 ++ [strOfChar c] = _
      rw [hd2]
      simp [List.append_assoc]
    obtain ⟨P, S, hdP, hopS, heS⟩ :=
      ih3 rest out stk (poT acc ++ P2) (S2 ++ [c]) hstk hop' hdec'
    refine ⟨P, S, hdP, hopS, ?_⟩
    rw [flatChars_append, flatChars_cons, List.append_assoc, List.append_assoc]
    show shuntGo (c :: (flatChars ts2 ++ (flatChars ts' ++ rest))) (out ++ A)
      (SA ++ stk) = _
    rw [shuntGo_operator c _ _ _ hnd hno]
    rw [shuntPop_seg c SA stk (seg_pop_add hcm hseg) (blocked_add hstk c)]
    rw [he2]
    have hout : (((out ++ A) ++ SA.map strOfChar) ++ P2) = out ++ (poT acc ++ P2) := by
      rw [hdec]
      simp [List.append_assoc]
    have hstk2 : S2 ++ (c :: stk) = (S2 ++ [c]) ++ stk := by
      simp [List.append_assoc]
    rw [hout, hstk2, heS]
  | @tRule ts e ts' r h2 h4 ih2 ih4 =>
    intro rest out stk hstk
    obtain ⟨P1, k1, hd1, he1⟩ := ih2 (flatChars ts' ++ rest) out stk
    have hge : ge2Seg (List.replicate k1 '^') := by
      intro d hd
      have := List.eq_of_mem_replicate hd
      subst this
      exact ⟨by decide, by decide⟩
    have hdec1 : poT e = P1 ++ (List.replicate k1 '^').map strOfChar := by
      rw [hd1]
      simp [List.map_replicate, show strOfChar '^' = "^" from rfl]
    obtain ⟨P, S, hdP, hgeS, heS⟩ :=
      ih4 rest out stk P1 (List.replicate k1 '^') hstk hge hdec1
    refine ⟨P, S, hdP, hgeS, ?_⟩
    rw [flatChars_append, List.append_assoc, he1, heS]
  | @eRule ts e ts' r h1 h3 ih1 ih3 =>
    intro rest out stk hstk
    have hstk2 : stkOK2 stk := by
      cases stk with
      | nil => trivial
      | cons d ds => exact Or.inl hstk
    obtain ⟨P1, S1, hd1, hge1, he1⟩ := ih1 (flatChars ts' ++ rest) out stk hstk2
    have hop1 : opSeg S1 := fun d hd => (hge1 d hd).1
    obtain ⟨P, S, hdP, hopS, heS⟩ := ih3 rest out stk P1 S1 hstk hop1 hd1
    refine ⟨P, S, hdP, hopS, ?_⟩
    rw [flatChars_append, List.append_assoc, he1, heS]

/-- The converter on the concatenated characters of a grammar derivation
produces exactly the space-joined post-order serialization. -/
theorem gr_toPostfix {ts : List String} {e : ExprS} (h : Gr 0 ts e e) :
    toPostfix (strConcat ts) = .ok (joinSpace (poT e)) := by
  obtain ⟨P, S, hd, hop, he⟩ := gr_shunt h [] [] [] trivial
  rw [List.append_nil, List.nil_append, List.append_nil] at he
  have hrun : shuntGo (strConcat ts).data [] [] = .ok (poT e) := by
    show shuntGo (flatChars ts) [] [] = _
    rw [he, shuntGo_nil_ops P S hop, hd]
  simp only [toPostfix, hrun]

/-- `strOfChar` is injective. -/
theorem strOfChar_inj {c d : Char} (h : strOfChar c = strOfChar d) : c = d := by
  have h2 : ([c] : List Char) = [d] := congrArg String.data h
  simpa using h2

/-- Shape facts about a single-operand-character token: it is none of the
tokens the factor parser tests first, and it is a number token exactly when
the character is a digit (otherwise it is an identifier token). -/
theorem operand_tok_shape (c : Char) (h : isOperandChar c = true) :
    strOfChar c ≠ "-" ∧ strOfChar c ≠ "(" ∧
      (isNumberTok (strOfChar c) = true ∨
        (isNumberTok (strOfChar c) = false ∧ isIdentTok (strOfChar c) = true)) := by
  have hnum : isNumberTok (strOfChar c) = c.isDigit := by
    simp [isNumberTok, strOfChar]
  have hid : isIdentTok (strOfChar c) = c.isAlpha := by
    simp [isIdentTok, strOfChar]
  refine ⟨?_, ?_, ?_⟩
  · intro heq
    have : c = '-' := strOfChar_inj heq
    subst this
    exact absurd h (by decide)
  · intro heq
    have : c = '(' := strOfChar_inj heq
    subst this
    exact absurd h (by decide)
  · rw [hnum, hid]
    cases hdig : c.isDigit with
    | true => exact Or.inl rfl
    | false =>
      refine Or.inr ⟨rfl, ?_⟩
      have := h
      simp only [isOperandChar, hdig, Bool.or_false] at this
      exact this

/-- The Expression follow condition is stronger than the Term one. -/
theorem headNotExprOp_to_TermOp {rest : List String} (h : headNotExprOp rest) :
    headNotTermOp rest := by
  cases rest with
  | nil => trivial
  | cons t l =>
    obtain ⟨_, _, h3, h4, h5, h6⟩ := h
    exact ⟨h3, h4, h5, h6⟩

/-- The Term follow condition is stronger than the Factor one. -/
theorem headNotTermOp_to_Pow {rest : List String} (h : headNotTermOp rest) :
    headNotPow rest := by
  cases rest with
  | nil => trivial
  | cons t l => exact h.2.2.2

/-- A term-tail derivation followed by a Term-follow suffix is a valid
Factor follow context. -/
theorem follow_of_ttail {ts' : List String} {acc r : ExprS} (h : Gr 4 ts' acc r)
    {rest : List String} (hr : headNotTermOp rest) : headNotPow (ts' ++ rest) := by
  cases h with
  | tNil => exact headNotTermOp_to_Pow hr
  | tCons hop h2 h4 =>
    show _ ≠ "^"
    rcases hop with h | h | h <;> subst h <;> decide

/-- An expression-tail derivation followed by an Expression-follow suffix is
a valid Term follow context. -/
theorem follow_of_etail {ts' : List String} {acc r : ExprS} (h : Gr 3 ts' acc r)
    {rest : List String} (hr : headNotExprOp rest) : headNotTermOp (ts' ++ rest) := by
  cases h with
  | eNil => exact headNotExprOp_to_TermOp hr
  | eCons hop h1 h3 =>
    refine ?_
    rcases hop with h | h <;> subst h <;> exact ⟨by decide, by decide, by decide, by decide⟩

/-- A Factor-follow token list never has `^` in head position. -/
theorem headNotPow_head {rest : List String} (h : headNotPow rest) :
    ¬ rest.head? = some "^" := by
  cases rest with
  | nil => simp
  | cons t l =>
    simp only [List.head?_cons, Option.some.injEq]
    exact h

/-- `combineOperator` when the virtual stack holds at least two nodes: the
two top nodes are popped (the threaded parameters are ignored), the operator
node built from them is pushed, and the remaining tokens are untouched. -/
theorem combineOperator_spec (st : RState) (op : String) (l r a b : ExpressionNode)
    (σ : List ExpressionNode) (h : st.vstack = a :: b :: σ) :
    (st.combineOperator op l r).1.rest = st.rest ∧
    (st.combineOperator op l r).1.vstack = (st.combineOperator op l r).2 :: σ ∧
    (st.combineOperator op l r).2 =
      .mk (op ++ ":" ++ b.id ++ ":" ++ a.id) .operator op (some b) (some a) := by
  unfold RState.combineOperator
  rw [h]
  refine ⟨rfl, rfl, rfl⟩

/-- `parseFactorF` on a single-character operand token: consume it, push the
leaf node and continue with the `('^' Factor)?` continuation. -/
theorem parseFactor_operand_step (g : Nat) (c : Char) (hc : isOperandChar c = true)
    (st : RState) (l : List String) (h : st.rest = strOfChar c :: l) :
    ∃ (st1 : RState) (node : ExpressionNode),
      parseFactorF (g + 1) st = parsePowF g node st1 ∧
      st1.rest = l ∧ st1.vstack = node :: st.vstack ∧
      eraseIds node = canonNode (.leaf (strOfChar c)) ∧
      treeToPostfixTokens node = [strOfChar c] := by
  obtain ⟨hne1, hne2, hnum⟩ := operand_tok_shape c hc
  rcases hnum with hn | ⟨hn, hi⟩
  · refine ⟨((st.advance).pushLeaf (strOfChar c) .number).1,
      ((st.advance).pushLeaf (strOfChar c) .number).2, ?_, ?_, ?_, ?_, ?_⟩
    · simp only [parseFactorF]
      rw [h]
      dsimp only
      rw [if_neg hne1, if_neg hne2, if_pos hn]
    · simp [RState.advance, RState.pushLeaf, RState.makeStep, h]
    · simp [RState.advance, RState.pushLeaf, RState.makeStep]
    · simp [RState.pushLeaf, eraseIds, canonNode, hn]
    · simp [RState.pushLeaf, treeToPostfixTokens]
  · refine ⟨((st.advance).pushLeaf (strOfChar c) .var).1,
      ((st.advance).pushLeaf (strOfChar c) .var).2, ?_, ?_, ?_, ?_, ?_⟩
    · simp only [parseFactorF]
      rw [h]
      dsimp only
      rw [if_neg hne1, if_neg hne2, if_neg (by rw [hn]; simp), if_pos hi]
    · simp [RState.advance, RState.pushLeaf, RState.makeStep, h]
    · simp [RState.advance, RState.pushLeaf, RState.makeStep]
    · simp [RState.pushLeaf, eraseIds, canonNode, hn]
    · simp [RState.pushLeaf, treeToPostfixTokens]

/-- The `('^' Factor)?` continuation when no `^` follows. -/
theorem parsePowF_none (g : Nat) (node : ExpressionNode) (st : RState)
    (h : ¬ st.rest.head? = some "^") :
    parsePowF (g + 1) node st = (st, .ok node) := by
  simp only [parsePowF, if_neg h]

/-- Recursive-descent builder correctness over the grammar: each parse
function consumes exactly its derivation's tokens, pushes one node on the
virtual stack, and that node erases to the canonical shape and serializes in
post-order to the derivation's `poT` (see `RDMotive`). -/
theorem gr_parse : ∀ {lvl : Nat} {ts : List String} {acc r : ExprS},
    Gr lvl ts acc r → RDMotive lvl ts acc r := by
  intro lvl ts acc r h
  induction h with
  | @fLeaf c hc =>
    intro fuel rest st hfuel hrest hfollow
    have hf4 : 4 ≤ fuel := by simpa using hfuel
    obtain ⟨f, rfl⟩ : ∃ f, fuel = (f + 1) + 1 := ⟨fuel - 2, by omega⟩
    obtain ⟨st1, node, heq, hr1, hv1, he1, htp1⟩ :=
      parseFactor_operand_step (f + 1) c hc st rest (by rw [hrest]; rfl)
    refine ⟨st1, node, ?_, hr1, hv1, he1, htp1⟩
    rw [heq, parsePowF_none f node st1 (by rw [hr1]; exact headNotPow_head hfollow)]
  | @fPow c ts2 e2 hc h2 ih2 =>
    intro fuel rest st hfuel hrest hfollow
    have hlen : 3 * ts2.length + 7 ≤ fuel := by
      simp [List.length_cons] at hfuel
      omega
    obtain ⟨f, rfl⟩ : ∃ f, fuel = (f + 1) + 1 := ⟨fuel - 2, by omega⟩
    obtain ⟨st1, node, heq, hr1, hv1, he1, htp1⟩ :=
      parseFactor_operand_step (f + 1) c hc st ("^" :: (ts2 ++ rest))
        (by rw [hrest]; rfl)
    rw [heq]
    simp only [parsePowF]
    rw [if_pos (show st1.rest.head? = some "^" by rw [hr1]; rfl)]
    obtain ⟨st2, right, heq2, hr2, hv2, he2, htp2⟩ :=
      ih2 f rest st1.advance (by omega)
        (by simp [RState.advance, hr1]) hfollow
    rw [heq2]
    dsimp only
    have hcs := combineOperator_spec st2 "^" node right right node st.vstack
      (by rw [hv2]; simp [RState.advance, hv1])
    refine ⟨(st2.combineOperator "^" node right).1,
      (st2.combineOperator "^" node right).2, rfl, ?_, ?_, ?_, ?_⟩
    · rw [hcs.1, hr2]
    · exact hcs.2.1
    · rw [hcs.2.2]
      simp [eraseIds, canonNode, he1, he2]
    · rw [hcs.2.2]
      simp [treeToPostfixTokens, poT, htp1, htp2]
  | @fParen tsE e h0 ih0 =>
    intro fuel rest st hfuel hrest hfollow
    have hlen : 3 * tsE.length + 7 ≤ fuel := by
      simp [List.length_append, List.length_cons] at hfuel
      omega
    obtain ⟨g, rfl⟩ : ∃ g, fuel = (g + 1) + 1 := ⟨fuel - 2, by omega⟩
    simp only [parseFactorF]
    rw [show st.rest = "(" :: (tsE ++ (")" :: rest)) by rw [hrest]; simp]
    dsimp only
    rw [if_neg (by decide), if_pos rfl]
    obtain ⟨st2, node, heq2, hr2, hv2, he2, htp2⟩ :=
      ih0 (g + 1) (")" :: rest) st.advance (by omega)
        (by simp [RState.advance, hrest])
        ⟨by decide, by decide, by decide, by decide, by decide, by decide⟩
    rw [heq2]
    dsimp only
    rw [if_pos (show st2.rest.head? = some ")" by rw [hr2]; rfl)]
    rw [parsePowF_none g node (st2.advance.makeStep "()" "Token \"()\": subexpresión evaluada.")
      (by simp [RState.makeStep, RState.advance, hr2]; exact headNotPow_head hfollow)]
    refine ⟨_, node, rfl, ?_, ?_, he2, htp2⟩
    · simp [RState.makeStep, RState.advance, hr2]
    · simp [RState.makeStep, RState.advance, hv2]
  | @fParenPow tsE e ts2 e2 h0 h2 ih0 ih2 =>
    intro fuel rest st hfuel hrest hfollow
    have hlen : 3 * tsE.length + 3 * ts2.length + 10 ≤ fuel := by
      simp [List.length_append, List.length_cons] at hfuel
      omega
    obtain ⟨g, rfl⟩ : ∃ g, fuel = (g + 1) + 1 := ⟨fuel - 2, by omega⟩
    simp only [parseFactorF]
    rw [show st.rest = "(" :: (tsE ++ (")" :: ("^" :: (ts2 ++ rest))))
      by rw [hrest]; simp]
    dsimp only
    rw [if_neg (by decide), if_pos rfl]
    obtain ⟨st2, node, heq2, hr2, hv2, he2, htp2⟩ :=
      ih0 (g + 1) (")" :: ("^" :: (ts2 ++ rest))) st.advance (by omega)
        (by simp [RState.advance, hrest])
        ⟨by decide, by decide, by decide, by decide, by decide, by decide⟩
    rw [heq2]
    dsimp only
    rw [if_pos (show st2.rest.head? = some ")" by rw [hr2]; rfl)]
    simp only [parsePowF]
    rw [if_pos (show (st2.advance.makeStep "()"
      "Token \"()\": subexpresión evaluada.").rest.head? = some "^"
      by simp [RState.makeStep, RState.advance, hr2])]
    obtain ⟨st3, right, heq3, hr3, hv3, he3, htp3⟩ :=
      ih2 g rest (st2.advance.makeStep "()"
          "Token \"()\": subexpresión evaluada.").advance (by omega)
        (by simp [RState.makeStep, RState.advance, hr2]) hfollow
    rw [heq3]
    dsimp only
    have hcs := combineOperator_spec st3 "^" node right right node st.vstack
      (by rw [hv3]; simp [RState.makeStep, RState.advance, hv2])
    refine ⟨(st3.combineOperator "^" node right).1,
      (st3.combineOperator "^" node right).2, rfl, ?_, ?_, ?_, ?_⟩
    · rw [hcs.1, hr3]
    · exact hcs.2.1
    · rw [hcs.2.2]
      simp [eraseIds, canonNode, he2, he3]
    · rw [hcs.2.2]
      simp [treeToPostfixTokens, poT, htp2, htp3]
  | tNil =>
    intro fuel rest st left σ0 hfuel hrest hfollow hv he htp
    obtain ⟨f, rfl⟩ : ∃ f, fuel = f + 1 := ⟨fuel - 1, by omega⟩
    rw [List.nil_append] at hrest
    simp only [parseTLoopF]
    rw [hrest]
    cases rest with
    | nil => exact ⟨st, left, rfl, hrest, hv, he, htp⟩
    | cons t l' =>
      dsimp only
      have hcond : ¬(t = "*" ∨ t = "/" ∨ t = "\\") := by
        rintro (hh | hh | hh)
        · exact hfollow.1 hh
        · exact hfollow.2.1 hh
        · exact hfollow.2.2.1 hh
      rw [if_neg hcond]
      exact ⟨st, left, rfl, hrest, hv, he, htp⟩
  | eNil =>
    intro fuel rest st left σ0 hfuel hrest hfollow hv he htp
    obtain ⟨f, rfl⟩ : ∃ f, fuel = f + 1 := ⟨fuel - 1, by omega⟩
    rw [List.nil_append] at hrest
    simp only [parseELoopF]
    rw [hrest]
    cases rest with
    | nil => exact ⟨st, left, rfl, hrest, hv, he, htp⟩
    | cons t l' =>
      dsimp only
      have hcond : ¬(t = "+" ∨ t = "-") := by
        rintro (hh | hh)
        · exact hfollow.1 hh
        · exact hfollow.2.1 hh
      rw [if_neg hcond]
      exact ⟨st, left, rfl, hrest, hv, he, htp⟩
  | @tCons op ts2 e2 ts' acc r hop h2 h4 ih2 ih4 =>
    intro fuel rest st left σ0 hfuel hrest hfollow hv he htp
    have hlen : 3 * ts2.length + 3 * ts'.length + 4 ≤ fuel := by
      simp [List.length_cons, List.length_append] at hfuel
      omega
    obtain ⟨f, rfl⟩ : ∃ f, fuel = f + 1 := ⟨fuel - 1, by omega⟩
    simp only [parseTLoopF]
    rw [show st.rest = op :: (ts2 ++ (ts' ++ rest)) by rw [hrest]; simp]
    dsimp only
    rw [if_pos hop]
    obtain ⟨st2, right, heqF, hr2, hv2, he2, htp2⟩ :=
      ih2 f (ts' ++ rest) st.advance (by omega)
        (by simp [RState.advance, hrest]) (follow_of_ttail h4 hfollow)
    rw [heqF]
    dsimp only
    have hcs := combineOperator_spec st2 op left right right left σ0
      (by rw [hv2]; simp [RState.advance, hv])
    obtain ⟨st3, node, heqL, hr3, hv3, he3, htp3⟩ :=
      ih4 f rest (st2.combineOperator op left right).1
        (st2.combineOperator op left right).2 σ0 (by omega)
        (by rw [hcs.1, hr2]) hfollow hcs.2.1
        (by rw [hcs.2.2]; simp [eraseIds, canonNode, he, he2])
        (by rw [hcs.2.2]; simp [treeToPostfixTokens, poT, htp, htp2])
    rw [heqL]
    exact ⟨st3, node, rfl, hr3, hv3, he3, htp3⟩
  | @eCons op ts2 e2 ts' acc r hop h1 h3 ih1 ih3 =>
    intro fuel rest st left σ0 hfuel hrest hfollow hv he htp
    have hlen : 3 * ts2.length + 3 * ts'.length + 4 ≤ fuel := by
      simp [List.length_cons, List.length_append] at hfuel
      omega
    obtain ⟨f, rfl⟩ : ∃ f, fuel = f + 1 := ⟨fuel - 1, by omega⟩
    simp only [parseELoopF]
    rw [show st.rest = op :: (ts2 ++ (ts' ++ rest)) by rw [hrest]; simp]
    dsimp only
    rw [if_pos hop]
    obtain ⟨st2, right, heqF, hr2, hv2, he2, htp2⟩ :=
      ih1 f (ts' ++ rest) st.advance (by omega)
        (by simp [RState.advance, hrest]) (follow_of_etail h3 hfollow)
    rw [heqF]
    dsimp only
    have hcs := combineOperator_spec st2 op left right right left σ0
      (by rw [hv2]; simp [RState.advance, hv])
    obtain ⟨st3, node, heqL, hr3, hv3, he3, htp3⟩ :=
      ih3 f rest (st2.combineOperator op left right).1
        (st2.combineOperator op left right).2 σ0 (by omega)
        (by rw [hcs.1, hr2]) hfollow hcs.2.1
        (by rw [hcs.2.2]; simp [eraseIds, canonNode, he, he2])
        (by rw [hcs.2.2]; simp [treeToPostfixTokens, poT, htp, htp2])
    rw [heqL]
    exact ⟨st3, node, rfl, hr3, hv3, he3, htp3⟩
  | @tRule tsF e ts' r h2 h4 ih2 ih4 =>
    intro fuel rest st hfuel hrest hfollow
    have hlen : 3 * tsF.length + 3 * ts'.length + 2 ≤ fuel := by
      simp [List.length_append] at hfuel
      omega
    obtain ⟨f, rfl⟩ : ∃ f, fuel = f + 1 := ⟨fuel - 1, by omega⟩
    simp only [parseTermF]
    obtain ⟨st1, left, heqF, hr1, hv1, he1, htp1⟩ :=
      ih2 f (ts' ++ rest) st (by omega)
        (by rw [hrest, List.append_assoc]) (follow_of_ttail h4 hfollow)
    rw [heqF]
    dsimp only
    obtain ⟨st2, node, heqL, hr2, hv2, he2, htp2⟩ :=
      ih4 f rest st1 left st.vstack (by omega) hr1 hfollow hv1 he1 htp1
    rw [heqL]
    exact ⟨st2, node, rfl, hr2, hv2, he2, htp2⟩
  | @eRule tsT e ts' r h1 h3 ih1 ih3 =>
    intro fuel rest st hfuel hrest hfollow
    have hlen : 3 * tsT.length + 3 * ts'.length + 3 ≤ fuel := by
      simp [List.length_append] at hfuel
      omega
    obtain ⟨f, rfl⟩ : ∃ f, fuel = f + 1 := ⟨fuel - 1, by omega⟩
    simp only [parseExpressionF]
    obtain ⟨st1, left, heqT, hr1, hv1, he1, htp1⟩ :=
      ih1 f (ts' ++ rest) st (by omega)
        (by rw [hrest, List.append_assoc]) (follow_of_etail h3 hfollow)
    rw [heqT]
    dsimp only
    obtain ⟨st2, node, heqL, hr2, hv2, he2, htp2⟩ :=
      ih3 f rest st1 left st.vstack (by omega) hr1 hfollow hv1 he1 htp1
    rw [heqL]
    exact ⟨st2, node, rfl, hr2, hv2, he2, htp2⟩

/-- Operand characters are not whitespace. -/
theorem operand_not_ws (c : Char) (h : isOperandChar c = true) :
    c.isWhitespace = false := by
  cases hw : c.isWhitespace with
  | false => rfl
  | true =>
    have hcs : ((c = ' ' ∨ c = '\t') ∨ c = '\r') ∨ c = '\n' := by
      simpa [Char.isWhitespace] using hw
    rcases hcs with ((h2 | h2) | h2) | h2 <;> subst h2 <;> exact absurd h (by decide)

/-- Operator tokens are not operand tokens. -/
theorem operator_not_operandTok (t : String) (h : isOperatorTok t = true) :
    isOperandTok t = false := by
  have hm : t ∈ (["+", "-", "*", "/", "\\", "^"] : List String) := by
    simpa [isOperatorTok] using h
  fin_cases hm <;> decide

/-- Grammar derivations produce well-formed binary shapes (at the tail
levels, provided the accumulator is well-formed). -/
theorem gr_wf : ∀ {lvl : Nat} {ts : List String} {acc r : ExprS},
    Gr lvl ts acc r →
    (binTreeWF acc = true → binTreeWF r = true) ∧
      (lvl = 0 ∨ lvl = 1 ∨ lvl = 2 → binTreeWF r = true) := by
  intro lvl ts acc r h
  induction h with
  | @fLeaf c hc =>
    have hwf : binTreeWF (.leaf (strOfChar c)) = true := by
      simp [binTreeWF, isOperandTok, strOfChar, hc]
    exact ⟨fun _ => hwf, fun _ => hwf⟩
  | @fPow c ts2 e2 hc h2 ih2 =>
    have hwf : binTreeWF (.bin "^" (.leaf (strOfChar c)) e2) = true := by
      simp [binTreeWF, isOperandTok, strOfChar, hc,
        ih2.2 (Or.inr (Or.inr rfl)), isOperatorTok]
    exact ⟨fun _ => hwf, fun _ => hwf⟩
  | @fParen tsE e h0 ih0 =>
    exact ⟨fun _ => ih0.2 (Or.inl rfl), fun _ => ih0.2 (Or.inl rfl)⟩
  | @fParenPow tsE e ts2 e2 h0 h2 ih0 ih2 =>
    have hwf : binTreeWF (.bin "^" e e2) = true := by
      simp [binTreeWF, ih0.2 (Or.inl rfl), ih2.2 (Or.inr (Or.inr rfl)), isOperatorTok]
    exact ⟨fun _ => hwf, fun _ => hwf⟩
  | tNil =>
    exact ⟨id, fun hl => by rcases hl with h | h | h <;> exact absurd h (by decide)⟩
  | eNil =>
    exact ⟨id, fun hl => by rcases hl with h | h | h <;> exact absurd h (by decide)⟩
  | @tCons op ts2 e2 ts' acc r hop h2 h4 ih2 ih4 =>
    constructor
    · intro ha
      apply ih4.1
      have hopt : isOperatorTok op = true := by
        rcases hop with h | h | h <;> subst h <;> decide
      simp [binTreeWF, hopt, ha, ih2.2 (Or.inr (Or.inr rfl))]
    · intro hl
      rcases hl with h | h | h <;> exact absurd h (by decide)
  | @eCons op ts2 e2 ts' acc r hop h1 h3 ih1 ih3 =>
    constructor
    · intro ha
      apply ih3.1
      have hopt : isOperatorTok op = true := by
        rcases hop with h | h <;> subst h <;> decide
      simp [binTreeWF, hopt, ha, ih1.2 (Or.inr (Or.inl rfl))]
    · intro hl
      rcases hl with h | h | h <;> exact absurd h (by decide)
  | @tRule tsF e ts' r h2 h4 ih2 ih4 =>
    have hwf : binTreeWF r = true := ih4.1 (ih2.2 (Or.inr (Or.inr rfl)))
    exact ⟨fun _ => hwf, fun _ => hwf⟩
  | @eRule tsT e ts' r h1 h3 ih1 ih3 =>
    have hwf : binTreeWF r = true := ih3.1 (ih1.2 (Or.inr (Or.inl rfl)))
    exact ⟨fun _ => hwf, fun _ => hwf⟩

/-- The post-order tokens of a well-formed binary shape all survive the
whitespace split of `split(/\s+/)` intact. -/
theorem wf_poT_good : ∀ (e : ExprS), binTreeWF e = true →
    ∀ t ∈ poT e, goodTok t = true := by
  intro e
  induction e with
  | leaf v =>
    intro h t ht
    have hv : isOperandTok v = true := by simpa [binTreeWF] using h
    have htv : t = v := by simpa [poT] using ht
    subst htv
    simp only [isOperandTok, Bool.and_eq_true, decide_eq_true_eq,
      List.all_eq_true] at hv
    simp only [goodTok, Bool.and_eq_true, decide_eq_true_eq, List.all_eq_true]
    exact ⟨hv.1, fun c hc => by rw [Bool.not_eq_true']; exact operand_not_ws c (hv.2 c hc)⟩
  | bin op l r ihl ihr =>
    intro h t ht
    have h3 : isOperatorTok op = true ∧ binTreeWF l = true ∧ binTreeWF r = true := by
      simpa [binTreeWF, Bool.and_eq_true, and_assoc] using h
    simp only [poT, List.mem_append, List.mem_singleton] at ht
    rcases ht with (ht | ht) | ht
    · exact ihl h3.2.1 t ht
    · exact ihr h3.2.2 t ht
    · subst ht
      have hm : t ∈ (["+", "-", "*", "/", "\\", "^"] : List String) := by
        simpa [isOperatorTok] using h3.1
      fin_cases hm <;> decide
  | un c ih =>
    intro h
    simp [binTreeWF] at h

/-- The postfix stack machine on the post-order tokens of a well-formed
binary shape pushes exactly one new node, which erases to the canonical
shape and re-serializes to the same tokens. -/
theorem buildGo_po : ∀ (e : ExprS), binTreeWF e = true →
    ∀ (rest : List String) (stack : List ExpressionNode) (steps : List BuildStep)
      (ctr idc : Nat),
    ∃ (node : ExpressionNode) (steps2 : List BuildStep) (ctr2 idc2 : Nat),
      buildGo (poT e ++ rest) stack steps ctr idc =
        buildGo rest (node :: stack) steps2 ctr2 idc2 ∧
      eraseIds node = canonNode e ∧ treeToPostfixTokens node = poT e := by
  intro e
  induction e with
  | leaf v =>
    intro h rest stack steps ctr idc
    have hv : isOperandTok v = true := by simpa [binTreeWF] using h
    refine ⟨leafNodeOf v idc,
      steps ++ [stepOf ctr v
        ("Token \"" ++ v ++ "\": operando, se apila como nodo hoja.")
        (leafNodeOf v idc :: stack)],
      ctr + 1, idc + 1, ?_, ?_, ?_⟩
    · show buildGo (v :: rest) stack steps ctr idc = _
      simp only [buildGo]
      rw [if_pos hv]
    · rfl
    · by_cases hn : isNumberTok v = true
      · simp only [leafNodeOf, if_pos hn]
        rfl
      · simp only [leafNodeOf, if_neg hn]
        rfl
  | bin op l r ihl ihr =>
    intro h rest stack steps ctr idc
    have h3 : isOperatorTok op = true ∧ binTreeWF l = true ∧ binTreeWF r = true := by
      simpa [binTreeWF, Bool.and_eq_true, and_assoc] using h
    obtain ⟨hop, hl, hr⟩ := h3
    obtain ⟨nl, s1, c1, i1, heq1, hel, htl⟩ :=
      ihl hl (poT r ++ (op :: rest)) stack steps ctr idc
    obtain ⟨nr, s2, c2, i2, heq2, her, htr⟩ :=
      ihr hr (op :: rest) (nl :: stack) s1 c1 i1
    have hopnd : isOperandTok op = false := operator_not_operandTok op hop
    refine ⟨opNodeOf op i2 nl nr,
      s2 ++ [stepOf c2 op
        ("Token \"" ++ op ++ "\": operador, se desapilan 2 nodos y se crea un nodo operador.")
        (opNodeOf op i2 nl nr :: stack)],
      c2 + 1, i2 + 1, ?_, ?_, ?_⟩
    · show buildGo ((poT l ++ poT r ++ [op]) ++ rest) stack steps ctr idc = _
      rw [List.append_assoc, List.append_assoc, List.singleton_append]
      rw [heq1, heq2]
      simp only [buildGo]
      rw [if_neg (by simp [hopnd]), if_pos hop]
    · simp [opNodeOf, eraseIds, canonNode, hel, her]
    · simp [opNodeOf, treeToPostfixTokens, poT, htl, htr]
  | un c ih =>
    intro h
    simp [binTreeWF] at h

/-- The postfix builder applied to the space-joined post-order tokens of a
well-formed binary shape succeeds with a tree of exactly that shape. -/
theorem buildTree_of_poT {e : ExprS} (hwf : binTreeWF e = true) :
    ∃ t1 : ExpressionNode,
      (buildTreeFromPostfix (joinSpace (poT e))).isValid = true ∧
      (buildTreeFromPostfix (joinSpace (poT e))).tree = some t1 ∧
      eraseIds t1 = canonNode e ∧ treeToPostfixTokens t1 = poT e := by
  have htok : splitTokens (joinSpace (poT e)).data = poT e :=
    splitTokens_joinSpace (poT e) (wf_poT_good e hwf)
  obtain ⟨node, s2, c2, i2, heq, he, htp⟩ := buildGo_po e hwf [] [] [] 1 0
  rw [List.append_nil] at heq
  have hrun : buildGo (splitTokens (joinSpace (poT e)).data) [] [] 1 0 =
      (s2, .ok [node]) := by
    rw [htok, heq]
    rfl
  have hres : buildTreeFromPostfix (joinSpace (poT e)) = ⟨some node, s2, true, none⟩ := by
    simp only [buildTreeFromPostfix, hrun]
    rfl
  exact ⟨node, by rw [hres], by rw [hres], he, htp⟩

/-- The virtual-stack recursive-descent builder on the infix rendering of a
grammar derivation succeeds with a tree of the canonical shape. -/
theorem parseRD_of_gr {ts : List String} {e : ExprS} (h : Gr 0 ts e e) :
    ∃ t2 : ExpressionNode,
      (parseRecursiveInfix (strConcat ts)).isValid = true ∧
      (parseRecursiveInfix (strConcat ts)).tree = some t2 ∧
      eraseIds t2 = canonNode e ∧ treeToPostfixTokens t2 = poT e := by
  have htok : tokenizeChars (strConcat ts).data = ts := by
    have h2 := gr_tokenize h [] trivial
    rw [List.append_nil] at h2
    show tokenizeChars (flatChars ts) = ts
    rw [h2, show tokenizeChars [] = [] from rfl, List.append_nil]
  obtain ⟨st2, node, heq, hr2, hv2, he2, htp2⟩ :=
    gr_parse h (3 * ts.length + 3) [] ⟨ts, 0, [], [], 1⟩ (by omega) (by simp) trivial
  have hres : parseRecursiveInfix (strConcat ts) =
      ⟨st2.vstack.head?,
        (st2.makeStep "DONE" "Construcción finalizada (árbol completo).").steps,
        true, none⟩ := by
    simp only [parseRecursiveInfix, htok]
    rw [heq]
    dsimp only
    rw [hr2]
    dsimp only
    rw [if_pos (by rw [hv2]; rfl)]
  refine ⟨node, by rw [hres], ?_, he2, htp2⟩
  rw [hres]
  show st2.vstack.head? = some node
  rw [hv2]
  rfl

/-- C1 (amended): on the comparable fragment — validator-accepted inputs
derivable from the engine's grammar with single-character operands and no
unary minus — the converter succeeds, both tree-construction strategies
succeed, their trees are structurally identical modulo node ids, and both
serialize in post-order to exactly the converter's token sequence. -/
theorem c1_refinement_equiv {ts : List String} {e : ExprS}
    (hg : Gr 0 ts e e)
    (hval : (validateExpression (strConcat ts)).2 = true) :
    ∃ (post : String) (t1 t2 : ExpressionNode),
      toPostfix (strConcat ts) = .ok post ∧
      (buildTreeFromPostfix post).isValid = true ∧
      (buildTreeFromPostfix post).tree = some t1 ∧
      (parseRecursiveInfix (strConcat ts)).isValid = true ∧
      (parseRecursiveInfix (strConcat ts)).tree = some t2 ∧
      eraseIds t1 = eraseIds t2 ∧
      treeToPostfixTokens t1 = splitTokens post.data ∧
      treeToPostfixTokens t2 = splitTokens post.data := by
  have hwf : binTreeWF e = true := (gr_wf hg).2 (Or.inl rfl)
  have hpost := gr_toPostfix hg
  obtain ⟨t1, hv1, ht1, he1, htp1⟩ := buildTree_of_poT hwf
  obtain ⟨t2, hv2, ht2, he2, htp2⟩ := parseRD_of_gr hg
  have hsplit : splitTokens (joinSpace (poT e)).data = poT e :=
    splitTokens_joinSpace (poT e) (wf_poT_good e hwf)
  exact ⟨joinSpace (poT e), t1, t2, hpost, hv1, ht1, hv2, ht2,
    by rw [he1, he2], by rw [htp1, hsplit], by rw [htp2, hsplit]⟩

/-- Witness for C1 (amended) at the concrete input `a+b*c`. -/
theorem c1_refinement_equiv_witness :
    (validateExpression (strConcat ["a", "+", "b", "*", "c"])).2 = true ∧
    (∃ (post : String) (t1 t2 : ExpressionNode),
      toPostfix (strConcat ["a", "+", "b", "*", "c"]) = .ok post ∧
      (buildTreeFromPostfix post).isValid = true ∧
      (buildTreeFromPostfix post).tree = some t1 ∧
      (parseRecursiveInfix (strConcat ["a", "+", "b", "*", "c"])).isValid = true ∧
      (parseRecursiveInfix (strConcat ["a", "+", "b", "*", "c"])).tree = some t2 ∧
      eraseIds t1 = eraseIds t2 ∧
      treeToPostfixTokens t1 = splitTokens post.data ∧
      treeToPostfixTokens t2 = splitTokens post.data) := by
  constructor
  · decide
  · have ha : Gr 2 ["a"] (.leaf "a") (.leaf "a") := @Gr.fLeaf 'a' (by decide)
    have hb : Gr 2 ["b"] (.leaf "b") (.leaf "b") := @Gr.fLeaf 'b' (by decide)
    have hc : Gr 2 ["c"] (.leaf "c") (.leaf "c") := @Gr.fLeaf 'c' (by decide)
    have hbc : Gr 1 ["b", "*", "c"] (.bin "*" (.leaf "b") (.leaf "c"))
        (.bin "*" (.leaf "b") (.leaf "c")) :=
      Gr.tRule hb (Gr.tCons (Or.inl rfl) hc Gr.tNil)
    have hta : Gr 1 ["a"] (.leaf "a") (.leaf "a") := Gr.tRule ha Gr.tNil
    have hg : Gr 0 ["a", "+", "b", "*", "c"]
        (.bin "+" (.leaf "a") (.bin "*" (.leaf "b") (.leaf "c")))
        (.bin "+" (.leaf "a") (.bin "*" (.leaf "b") (.leaf "c"))) :=
      Gr.eRule hta (Gr.eCons (Or.inl rfl) hbc Gr.eNil)
    exact c1_refinement_equiv hg (by decide)
